import Mathlib

/-! Verification of the organi-flow-api tree-reparenting core.

Shallow embedding of the JSON-tree variant of the organizational-hierarchy
service (`main.py` / `functions.py`): nodes are dicts
`{name, attributes, children}` where `attributes` is an insertion-ordered
string-keyed dict; reading a missing key raises `KeyError`.  Python's in-place
mutation of aliased sub-dicts is rendered as pure path-based updates, and the
exception control flow as an `Except PyErr` monad.
-/

namespace OrganiFlow

/-- A JSON-dict attribute value as used by the service: an integer (`id`,
`manager_id`, `position`) or a string (`title`). -/
inductive AttrVal where
  | int (i : Int)
  | str (s : String)
  deriving DecidableEq, Repr

/-- One employee node of the tree: the Python dict
`{"name": ..., "attributes": {...}, "children": [...]}`.  `attrs` models the
insertion-ordered `attributes` dict as an association list. -/
inductive Node where
  | mk (name : String) (attrs : List (String × AttrVal)) (children : List Node)
  deriving Repr

/-- The `"name"` field of a node. -/
def Node.name : Node → String
  | .mk n _ _ => n

/-- The `"attributes"` dict of a node. -/
def Node.attrs : Node → List (String × AttrVal)
  | .mk _ a _ => a

/-- The `"children"` list of a node. -/
def Node.children : Node → List Node
  | .mk _ _ c => c

mutual

/-- Number of nodes in a tree (used as a termination measure). -/
def Node.size : Node → Nat
  | .mk _ _ cs => 1 + sizeForest cs

/-- Number of nodes in a forest. -/
def sizeForest : List Node → Nat
  | [] => 0
  | c :: cs => Node.size c + sizeForest cs

end

theorem sizeForest_append (l₁ l₂ : List Node) :
    sizeForest (l₁ ++ l₂) = sizeForest l₁ + sizeForest l₂ := by
  induction l₁ with
  | nil => simp [sizeForest]
  | cons c cs ih => simp [sizeForest, ih, Nat.add_assoc]

theorem size_pos (n : Node) : 0 < n.size := by
  cases n with
  | mk nm a cs => simp [Node.size]

/-! Section: Python dict primitives

An insertion-ordered `str`-keyed dict is an association list with pairwise
distinct keys.  `d[k]` returns the value of the (unique, hence first) binding
or raises `KeyError`; `d[k] = v` replaces the existing binding in place or
appends a new one at the end. -/

/-- Python `d[k]` lookup: first binding for `k`, if any. -/
def dictGet : List (String × AttrVal) → String → Option AttrVal
  | [], _ => none
  | (k', v) :: rest, k => if k' == k then some v else dictGet rest k

/-- Python `d[k] = v` assignment: replace the first binding in place, else append. -/
def dictSet : List (String × AttrVal) → String → AttrVal → List (String × AttrVal)
  | [], k, v => [(k, v)]
  | (k', v') :: rest, k, v =>
    if k' == k then (k, v) :: rest else (k', v') :: dictSet rest k v

/-- Python exceptions that the reparenting endpoint can raise internally:
`KeyError` (missing dict key), `ValueError` (from `add_employee_to_manager`),
and FastAPI's `HTTPException`. -/
inductive PyErr where
  | keyError (key : String)
  | valueError (msg : String)
  | http (code : Nat) (detail : String)
  deriving DecidableEq, Repr

/-- Attribute access `node["attributes"][k]`, raising `KeyError` when the key
is absent. -/
def getAttr (n : Node) (k : String) : Except PyErr AttrVal :=
  match dictGet n.attrs k with
  | some v => .ok v
  | none => .error (.keyError k)

/-- Python `==` between an attribute value and an `int` request field:
two ints compare by value, a string never equals an int. -/
def pyEqInt : AttrVal → Int → Bool
  | .int i, t => i == t
  | .str _, _ => false

/-! Section: Tree Navigator functions (translated from `main.py`) -/

mutual

/-- Python `find_employee_in_tree(node, target_id)` (`main.py:117`): pre-order
depth-first search; returns the first node whose `attributes["id"]` equals
`target_id`, else `None`. -/
def find_employee_in_tree : Node → Int → Except PyErr (Option Node)
  | .mk nm a cs, x =>
    match getAttr (.mk nm a cs) "id" with
    | .error e => .error e
    | .ok v =>
      if pyEqInt v x then .ok (some (.mk nm a cs))
      else find_employee_in_forest cs x

/-- The `for child in node["children"]` loop of `find_employee_in_tree`. -/
def find_employee_in_forest (cs : List Node) (x : Int) : Except PyErr (Option Node) :=
  match cs with
  | [] => .ok none
  | c :: rest =>
    match find_employee_in_tree c x with
    | .error e => .error e
    | .ok (some r) => .ok (some r)
    | .ok none => find_employee_in_forest rest x

end

mutual

/-- Python `is_descendant(parent_node, target_id)` (`main.py:141`): does `target_id`
occur in the subtree rooted at `parent_node` (the node itself included)? -/
def is_descendant : Node → Int → Except PyErr Bool
  | .mk nm a cs, x =>
    match getAttr (.mk nm a cs) "id" with
    | .error e => .error e
    | .ok v =>
      if pyEqInt v x then .ok true
      else is_descendant_forest cs x

/-- The `for child in parent_node["children"]` loop of `is_descendant`. -/
def is_descendant_forest (cs : List Node) (x : Int) : Except PyErr Bool :=
  match cs with
  | [] => .ok false
  | c :: rest =>
    match is_descendant c x with
    | .error e => .error e
    | .ok true => .ok true
    | .ok false => is_descendant_forest rest x

end

/-! Subsection: Paths

Python mutates sub-dicts through aliases held in the BFS queue; the pure
rendering addresses a node by its path of child indices from the root and
rebuilds the tree along that path. -/

/-- The node reached from `t` by following a path of child indices. -/
def nodeAt : Node → List Nat → Option Node
  | t, [] => some t
  | t, i :: p =>
    match t.children[i]? with
    | none => none
    | some c => nodeAt c p

/-- Rebuild `t` with `f` applied to the node at path `p` (identity when the
path dangles; all uses are at valid paths). -/
def modifyAt : Node → List Nat → (Node → Node) → Node
  | t, [], f => f t
  | .mk nm a cs, i :: p, f =>
    match cs[i]? with
    | none => .mk nm a cs
    | some c => .mk nm a (cs.set i (modifyAt c p f))

/-- Python `current["children"].pop(i)`: splice child `i` out, keeping the order of
the remaining siblings. -/
def eraseChild (n : Node) (i : Nat) : Node :=
  .mk n.name n.attrs (n.children.eraseIdx i)

/-- Python `manager_node["children"].append(node)`: append at the end. -/
def appendChild (c : Node) (n : Node) : Node :=
  .mk n.name n.attrs (n.children ++ [c])

/-! Subsection: `find_and_remove_employee` (`main.py:126`)

The Python function runs a FIFO queue of aliased node dicts; popping `current`,
it scans `current["children"]` left to right, returning the first child whose
id matches (after splicing it out with `pop(i)`) and enqueueing scanned
children.  Queue entries are rendered as (path, subtree) pairs; until a match
is found nothing has been mutated, so each queued subtree is literally the
subtree of the original tree at its path. -/

/-- The `for i, child in enumerate(current["children"])` scan: index of the
first child whose `attributes["id"]` equals `x` (`KeyError` propagates),
counting from `i₀`. -/
def scanChildren : List Node → Int → Nat → Except PyErr (Option Nat)
  | [], _, _ => .ok none
  | c :: rest, x, i₀ =>
    match getAttr c "id" with
    | .error e => .error e
    | .ok v =>
      if pyEqInt v x then .ok (some i₀)
      else scanChildren rest x (i₀ + 1)

/-- Python `queue.append(child)` for each scanned child: the queue entries for the
children of the node at path `p`, with indices from `i₀`. -/
def childEntries (p : List Nat) : Nat → List Node → List (List Nat × Node)
  | _, [] => []
  | i₀, c :: rest => (p ++ [i₀], c) :: childEntries p (i₀ + 1) rest

/-- Total size of the subtrees held in the queue (termination measure). -/
def queueSize (q : List (List Nat × Node)) : Nat :=
  sizeForest (q.map (·.2))

theorem sizeForest_map_childEntries (p : List Nat) (i₀ : Nat) (cs : List Node) :
    sizeForest ((childEntries p i₀ cs).map (·.2)) = sizeForest cs := by
  induction cs generalizing i₀ with
  | nil => rfl
  | cons c rest ih => simp [childEntries, sizeForest, ih]

/-- The `while queue:` loop of `find_and_remove_employee`: returns the path of
the parent and the index of the matching child of the first match in
breadth-first scanning order. -/
def bfs_remove_search (x : Int) : List (List Nat × Node) → Except PyErr (Option (List Nat × Nat))
  | [] => .ok none
  | (p, n) :: rest =>
    match scanChildren n.children x 0 with
    | .error e => .error e
    | .ok (some i) => .ok (some (p, i))
    | .ok none => bfs_remove_search x (rest ++ childEntries p 0 n.children)
  termination_by q => queueSize q
  decreasing_by
    cases n with
    | mk nm a cs =>
      simp [queueSize, sizeForest_append, sizeForest_map_childEntries, sizeForest,
        Node.size, Node.children]
      omega

/-- Python `find_and_remove_employee(tree, target_id)` (`main.py:126`): refuses to
remove the root, else BFS-searches for the first child with the target id,
splices it out and returns it.  The pure rendering returns the removed node
(`None` when not found / root) together with the updated tree. -/
def find_and_remove_employee (t : Node) (x : Int) : Except PyErr (Option Node × Node) :=
  match getAttr t "id" with
  | .error e => .error e
  | .ok v =>
    if pyEqInt v x then .ok (none, t)
    else
      match bfs_remove_search x [([], t)] with
      | .error e => .error e
      | .ok none => .ok (none, t)
      | .ok (some (p, i)) =>
        .ok ((nodeAt t p).bind (fun par => par.children[i]?),
             modifyAt t p (fun par => eraseChild par i))

/-! Subsection: `add_employee_to_manager` (`main.py:150`)

The source looks the manager up with `find_employee_in_tree` and appends to the
aliased dict's `children`.  The pure rendering computes the path of the same
(pre-order first) match and appends there; `findPath` performs the identical
traversal as `find_employee_in_tree` (same order, same `KeyError`s). -/

mutual

/-- Path of the node `find_employee_in_tree` would return. -/
def findPath : Node → Int → Except PyErr (Option (List Nat))
  | .mk nm a cs, x =>
    match getAttr (.mk nm a cs) "id" with
    | .error e => .error e
    | .ok v =>
      if pyEqInt v x then .ok (some [])
      else
        match findPathForest cs x with
        | .error e => .error e
        | .ok (some (i, p)) => .ok (some (i :: p))
        | .ok none => .ok none

/-- Child index and relative path of the first match in a forest. -/
def findPathForest : List Node → Int → Except PyErr (Option (Nat × List Nat))
  | [], _ => .ok none
  | c :: rest, x =>
    match findPath c x with
    | .error e => .error e
    | .ok (some p) => .ok (some (0, p))
    | .ok none =>
      match findPathForest rest x with
      | .error e => .error e
      | .ok (some (i, p)) => .ok (some (i + 1, p))
      | .ok none => .ok none

end

/-- Python `add_employee_to_manager(tree, manager_id, employee_node)` (`main.py:150`):
append `emp` to the children of the first pre-order node with id `managerId`,
or raise `ValueError` when there is none. -/
def add_employee_to_manager (t : Node) (managerId : Int) (emp : Node) : Except PyErr Node :=
  match findPath t managerId with
  | .error e => .error e
  | .ok (some p) => .ok (modifyAt t p (appendChild emp))
  | .ok none => .error (.valueError "Manager não encontrado")

/-- Python `employee_node["attributes"]["manager_id"] = new_manager_id`
(`main.py:186`). -/
def setManagerId (n : Node) (m : Int) : Node :=
  .mk n.name (dictSet n.attrs "manager_id" (.int m)) n.children

/-! Subsection: The `/update-employee-manager` endpoint (`main.py:157`) -/

/-- The body of the `try:` block of `update_employee_manager`: the four
validations in source order, then detach, `manager_id` update, attach.
Returns the tree passed to `save_tree` on success. -/
def update_employee_manager_core (tree : Node) (eid mid : Int) : Except PyErr Node :=
  match find_employee_in_tree tree mid with
  | .error e => .error e
  | .ok none => .error (.http 404 "Novo manager não encontrado")
  | .ok (some _) =>
    if eid == mid then
      .error (.http 400 "Um funcionário não pode ser manager de si mesmo")
    else
      match find_employee_in_tree tree eid with
      | .error e => .error e
      | .ok none => .error (.http 404 "Funcionário não encontrado")
      | .ok (some employee_node_in_tree) =>
        match is_descendant employee_node_in_tree mid with
        | .error e => .error e
        | .ok true => .error (.http 400 "Criação de loop hierárquico não permitida")
        | .ok false =>
          match find_and_remove_employee tree eid with
          | .error e => .error e
          | .ok (none, _) => .error (.http 404 "Funcionário não encontrado")
          | .ok (some employee_node, tree₁) =>
            match add_employee_to_manager tree₁ mid (setManagerId employee_node mid) with
            | .error e => .error e
            | .ok tree₂ => .ok tree₂

/-- HTTP outcome of the endpoint: `success` is the 200 JSON response (reached
only after `save_tree`), `http c d` a re-raised `HTTPException`, and
`serverError` the generic 500 handler for any other exception. -/
inductive Resp where
  | success
  | http (code : Nat) (detail : String)
  | serverError
  deriving DecidableEq, Repr

/-- Endpoint `update_employee_manager` (`main.py:157`) as a transformer of the persisted
store: the resulting store (`save_tree` overwrites it only on the success
path) paired with the HTTP outcome. -/
def update_employee_manager_route (store : Node) (eid mid : Int) : Node × Resp :=
  match update_employee_manager_core store eid mid with
  | .ok t => (t, .success)
  | .error (.http c d) => (store, .http c d)
  | .error _ => (store, .serverError)

/-- The default tree `load_tree` returns when `tree.json` does not exist
(`main.py:21`): `{"name": "Root", "attributes": {}, "children": []}`. -/
def defaultTree : Node := .mk "Root" [] []

/-! Section: Specification-side vocabulary

Pure, total definitions used to state properties: node enumerations (pre-order
and breadth-first), id counting, and the well-formedness predicates of the data
model ("every node's `attributes` has an integer `id`", "every id appears
exactly once"). -/

/-- The integer id of a node, when `attributes["id"]` exists and is an int. -/
def intId? (n : Node) : Option Int :=
  match dictGet n.attrs "id" with
  | some (.int i) => some i
  | _ => none

/-- Does this node carry integer id `x`? -/
def matchesId (n : Node) (x : Int) : Bool :=
  intId? n == some x

/-- Does `attributes["id"]` exist and hold an int? -/
def hasIntId (n : Node) : Bool :=
  (intId? n).isSome

mutual

/-- Pre-order enumeration of all nodes of a tree (parent first, children in
listed order). -/
def preorder : Node → List Node
  | .mk nm a cs => .mk nm a cs :: preorderForest cs

/-- Pre-order enumeration of a forest. -/
def preorderForest : List Node → List Node
  | [] => []
  | c :: rest => preorder c ++ preorderForest rest

end

mutual

/-- Data-model well-keyedness: every node of the tree has an integer
`attributes["id"]`. -/
def nodeWK : Node → Bool
  | .mk nm a cs => hasIntId (.mk nm a cs) && forestWK cs

/-- Well-keyedness of a forest. -/
def forestWK : List Node → Bool
  | [] => true
  | c :: rest => nodeWK c && forestWK rest

end

/-- How many nodes of the tree carry integer id `x`. -/
def countId (n : Node) (x : Int) : Nat :=
  (preorder n).countP (fun m => matchesId m x)

/-- How many nodes of a forest carry integer id `x`. -/
def countIdF (cs : List Node) (x : Int) : Nat :=
  (preorderForest cs).countP (fun m => matchesId m x)

/-- The data-model invariant: every id appears at most once in the tree. -/
def uniqueIds (t : Node) : Prop :=
  ((preorder t).filterMap intId?).Nodup

instance : DecidablePred uniqueIds := fun t =>
  inferInstanceAs (Decidable ((preorder t).filterMap intId?).Nodup)

/-- Index of the first node of a list satisfying `p`. -/
def firstIdx (p : Node → Bool) : List Node → Option Nat
  | [] => none
  | c :: rest => if p c then some 0 else (firstIdx p rest).map (· + 1)

/-- Pure mirror of `bfs_remove_search` on well-keyed queues. -/
def searchPure (x : Int) : List (List Nat × Node) → Option (List Nat × Nat)
  | [] => none
  | (p, n) :: rest =>
    match firstIdx (fun c => matchesId c x) n.children with
    | some i => some (p, i)
    | none => searchPure x (rest ++ childEntries p 0 n.children)
  termination_by q => queueSize q
  decreasing_by
    cases n with
    | mk nm a cs =>
      simp [queueSize, sizeForest_append, sizeForest_map_childEntries, sizeForest,
        Node.size, Node.children]
      omega

theorem sizeForest_step (n : Node) (rest : List Node) :
    sizeForest (rest ++ n.children) < sizeForest (n :: rest) := by
  cases n with
  | mk nm a cs =>
    simp [sizeForest_append, sizeForest, Node.size, Node.children]
    omega

/-- All nodes reachable from a queue of roots, in breadth-first visit order. -/
def bfsListN : List Node → List Node
  | [] => []
  | n :: rest => n :: bfsListN (rest ++ n.children)
  termination_by q => sizeForest q
  decreasing_by exact sizeForest_step _ _

/-- The children scanned by the BFS loop, in scanning order: for each node in
breadth-first visit order, its children left to right. -/
def scanOrderN : List Node → List Node
  | [] => []
  | n :: rest => n.children ++ scanOrderN (rest ++ n.children)
  termination_by q => sizeForest q
  decreasing_by exact sizeForest_step _ _

/-- Breadth-first enumeration of the nodes of a tree (root first, then level
by level, each level left to right). -/
def bfsNodes (t : Node) : List Node := bfsListN [t]

mutual

/-- All (parent, child) edges of a tree, in pre-order of the parent. -/
def childPairs : Node → List (Node × Node)
  | .mk nm a cs => cs.map (fun c => (.mk nm a cs, c)) ++ childPairsForest cs

/-- All (parent, child) edges of a forest. -/
def childPairsForest : List Node → List (Node × Node)
  | [] => []
  | c :: rest => childPairs c ++ childPairsForest rest

end

/-- The parent of the first (pre-order) edge whose child carries id `x`: the
"previous manager" of employee `x`. -/
def parentOfId (t : Node) (x : Int) : Option Node :=
  ((childPairs t).find? (fun pc => matchesId pc.2 x)).map (·.1)

/-! Section: Dict and attribute lemmas -/

theorem dictGet_dictSet_ne (a : List (String × AttrVal)) (k k' : String) (v : AttrVal)
    (h : k ≠ k') : dictGet (dictSet a k' v) k = dictGet a k := by
  induction a with
  | nil => simp [dictGet, dictSet, Ne.symm h]
  | cons kv rest ih =>
    obtain ⟨k₀, v₀⟩ := kv
    by_cases hk : k₀ = k'
    · subst hk
      simp [dictGet, dictSet, Ne.symm h]
    · by_cases he : k₀ = k
      · simp [dictGet, dictSet, hk, he, h]
      · simp [dictGet, dictSet, hk, he, ih]

theorem intId?_setManagerId (n : Node) (m : Int) :
    intId? (setManagerId n m) = intId? n := by
  cases n with
  | mk nm a cs =>
    simp [intId?, setManagerId, Node.attrs,
      dictGet_dictSet_ne a "id" "manager_id" (.int m) (by decide)]

theorem matchesId_setManagerId (n : Node) (m x : Int) :
    matchesId (setManagerId n m) x = matchesId n x := by
  simp [matchesId, intId?_setManagerId]

theorem hasIntId_setManagerId (n : Node) (m : Int) :
    hasIntId (setManagerId n m) = hasIntId n := by
  simp [hasIntId, intId?_setManagerId]

theorem pyEqInt_true_iff (v : AttrVal) (x : Int) :
    pyEqInt v x = true ↔ v = .int x := by
  cases v with
  | int i => simp [pyEqInt]
  | str s => simp [pyEqInt]

/-- Under `hasIntId`, `attributes["id"]` access succeeds with the int id. -/
theorem getAttr_id_of_hasIntId (n : Node) (h : hasIntId n = true) :
    ∃ i, getAttr n "id" = .ok (.int i) ∧ intId? n = some i := by
  cases hg : dictGet n.attrs "id" with
  | none => simp [hasIntId, intId?, hg] at h
  | some v =>
    cases v with
    | int i => exact ⟨i, by simp [getAttr, hg], by simp [intId?, hg]⟩
    | str s => simp [hasIntId, intId?, hg] at h

theorem matchesId_iff_intId? (n : Node) (x : Int) :
    matchesId n x = true ↔ intId? n = some x := by
  simp [matchesId]

/-- Key bridge: with an int id present, the source's `pyEqInt`-test coincides
with `matchesId`. -/
theorem pyEqInt_eq_matchesId (n : Node) (x i : Int) (h : intId? n = some i) :
    pyEqInt (.int i) x = matchesId n x := by
  simp [pyEqInt, matchesId, h]

/-! Section: Pre-order and counting basics -/

theorem preorder_mk (nm : String) (a : List (String × AttrVal)) (cs : List Node) :
    preorder (.mk nm a cs) = .mk nm a cs :: preorderForest cs := by
  simp [preorder]

theorem preorderForest_cons (c : Node) (rest : List Node) :
    preorderForest (c :: rest) = preorder c ++ preorderForest rest := by
  simp [preorderForest]

theorem countId_mk (nm : String) (a : List (String × AttrVal)) (cs : List Node) (x : Int) :
    countId (.mk nm a cs) x =
      (if matchesId (.mk nm a cs) x then 1 else 0) + countIdF cs x := by
  simp [countId, countIdF, preorder_mk, List.countP_cons, Nat.add_comm]

theorem countIdF_nil (x : Int) : countIdF [] x = 0 := by
  simp [countIdF, preorderForest]

theorem countIdF_cons (c : Node) (rest : List Node) (x : Int) :
    countIdF (c :: rest) x = countId c x + countIdF rest x := by
  simp [countIdF, countId, preorderForest_cons, List.countP_append]

theorem countIdF_append (l₁ l₂ : List Node) (x : Int) :
    countIdF (l₁ ++ l₂) x = countIdF l₁ x + countIdF l₂ x := by
  induction l₁ with
  | nil => simp [countIdF_nil]
  | cons c rest ih => simp [countIdF_cons, ih, Nat.add_assoc]

theorem self_mem_preorder (n : Node) : n ∈ preorder n := by
  cases n with
  | mk nm a cs => simp [preorder_mk]

theorem countId_pos_of_matchesId (n : Node) (x : Int) (h : matchesId n x = true) :
    0 < countId n x := by
  cases n with
  | mk nm a cs => simp [countId_mk, h]

mutual

theorem mem_preorder_elim (n m : Node) (hm : m ∈ preorder n) :
    m = n ∨ ∃ c ∈ n.children, m ∈ preorder c := by
  cases n with
  | mk nm a cs =>
    rw [preorder_mk] at hm
    rcases List.mem_cons.mp hm with h | h
    · exact .inl h
    · exact .inr (mem_preorderForest_elim cs m h)

theorem mem_preorderForest_elim (cs : List Node) (m : Node) (hm : m ∈ preorderForest cs) :
    ∃ c ∈ cs, m ∈ preorder c := by
  cases cs with
  | nil => simp [preorderForest] at hm
  | cons c rest =>
    rw [preorderForest_cons] at hm
    rcases List.mem_append.mp hm with h | h
    · exact ⟨c, List.mem_cons_self .., h⟩
    · obtain ⟨c', hc', hm'⟩ := mem_preorderForest_elim rest m h
      exact ⟨c', List.mem_cons_of_mem _ hc', hm'⟩

end

theorem mem_preorderForest_of_mem (cs : List Node) (c : Node) (hc : c ∈ cs)
    (m : Node) (h : m ∈ preorder c) : m ∈ preorderForest cs := by
  induction cs with
  | nil => simp at hc
  | cons d rest ih =>
    rw [preorderForest_cons]
    rcases List.mem_cons.mp hc with he | he
    · subst he; exact List.mem_append_left _ h
    · exact List.mem_append_right _ (ih he)

theorem child_mem_preorder (n c : Node) (hc : c ∈ n.children) : c ∈ preorder n := by
  cases n with
  | mk nm a cs =>
    rw [preorder_mk]
    refine List.mem_cons_of_mem _ ?_
    exact mem_preorderForest_of_mem cs c hc c (self_mem_preorder c)

/-! Section: Well-keyedness lemmas -/

theorem nodeWK_mk (nm : String) (a : List (String × AttrVal)) (cs : List Node) :
    nodeWK (.mk nm a cs) = (hasIntId (.mk nm a cs) && forestWK cs) := by
  simp [nodeWK]

theorem forestWK_cons (c : Node) (rest : List Node) :
    forestWK (c :: rest) = (nodeWK c && forestWK rest) := by
  simp [forestWK]

theorem forestWK_append (l₁ l₂ : List Node) :
    forestWK (l₁ ++ l₂) = (forestWK l₁ && forestWK l₂) := by
  induction l₁ with
  | nil => simp [forestWK]
  | cons c rest ih => simp [forestWK_cons, ih, Bool.and_assoc]

theorem hasIntId_of_nodeWK (n : Node) (h : nodeWK n = true) : hasIntId n = true := by
  cases n with
  | mk nm a cs => rw [nodeWK_mk] at h; simp at h; exact h.1

theorem forestWK_of_nodeWK (n : Node) (h : nodeWK n = true) :
    forestWK n.children = true := by
  cases n with
  | mk nm a cs => rw [nodeWK_mk] at h; simp at h; exact h.2

theorem nodeWK_of_mem_forestWK (cs : List Node) (c : Node) (hc : c ∈ cs)
    (h : forestWK cs = true) : nodeWK c = true := by
  induction cs with
  | nil => simp at hc
  | cons d rest ih =>
    rw [forestWK_cons] at h
    simp at h
    rcases List.mem_cons.mp hc with he | he
    · subst he; exact h.1
    · exact ih he h.2

/-! Section: `find_employee_in_tree` and `is_descendant` as pre-order searches -/

mutual

/-- On a well-keyed tree, `find_employee_in_tree` returns the first node in
pre-order whose id matches. -/
theorem find_eq_preorder (n : Node) (x : Int) (h : nodeWK n = true) :
    find_employee_in_tree n x = .ok ((preorder n).find? (fun m => matchesId m x)) := by
  cases n with
  | mk nm a cs =>
    obtain ⟨i, hga, hid⟩ := getAttr_id_of_hasIntId _ (hasIntId_of_nodeWK _ h)
    rw [preorder_mk]
    simp only [find_employee_in_tree, hga, pyEqInt_eq_matchesId (.mk nm a cs) x i hid]
    by_cases hm : matchesId (.mk nm a cs) x
    · simp [hm, List.find?_cons_of_pos]
    · simp only [hm, if_neg, Bool.false_eq_true, not_false_eq_true,
        List.find?_cons_of_neg, reduceIte]
      exact find_forest_eq_preorder cs x (forestWK_of_nodeWK _ h)

/-- Forest version of `find_eq_preorder`. -/
theorem find_forest_eq_preorder (cs : List Node) (x : Int) (h : forestWK cs = true) :
    find_employee_in_forest cs x =
      .ok ((preorderForest cs).find? (fun m => matchesId m x)) := by
  cases cs with
  | nil => simp [find_employee_in_forest, preorderForest]
  | cons c rest =>
    rw [forestWK_cons] at h
    simp at h
    rw [preorderForest_cons]
    simp only [find_employee_in_forest, find_eq_preorder c x h.1, List.find?_append]
    cases hf : (preorder c).find? (fun m => matchesId m x) with
    | some r => simp
    | none =>
      simp only [Option.none_or]
      exact find_forest_eq_preorder rest x h.2

end

mutual

/-- On a well-keyed tree, `is_descendant` decides whether some node of the
subtree carries the id. -/
theorem is_descendant_eq_any (n : Node) (x : Int) (h : nodeWK n = true) :
    is_descendant n x = .ok ((preorder n).any (fun m => matchesId m x)) := by
  cases n with
  | mk nm a cs =>
    obtain ⟨i, hga, hid⟩ := getAttr_id_of_hasIntId _ (hasIntId_of_nodeWK _ h)
    rw [preorder_mk]
    simp only [is_descendant, hga, pyEqInt_eq_matchesId (.mk nm a cs) x i hid]
    by_cases hm : matchesId (.mk nm a cs) x
    · simp [hm]
    · simp only [hm, Bool.false_eq_true, not_false_eq_true, reduceIte, List.any_cons,
        Bool.false_or]
      exact is_descendant_forest_eq_any cs x (forestWK_of_nodeWK _ h)

/-- Forest version of `is_descendant_eq_any`. -/
theorem is_descendant_forest_eq_any (cs : List Node) (x : Int) (h : forestWK cs = true) :
    is_descendant_forest cs x = .ok ((preorderForest cs).any (fun m => matchesId m x)) := by
  cases cs with
  | nil => simp [is_descendant_forest, preorderForest]
  | cons c rest =>
    rw [forestWK_cons] at h
    simp at h
    rw [preorderForest_cons]
    simp only [is_descendant_forest, is_descendant_eq_any c x h.1, List.any_append]
    cases ha : (preorder c).any (fun m => matchesId m x) with
    | true => simp
    | false =>
      simp only [Bool.false_or]
      exact is_descendant_forest_eq_any rest x h.2

end

/-- On a well-keyed tree, "not found" means no node carries the id. -/
theorem find_none_iff (t : Node) (x : Int) (h : nodeWK t = true) :
    find_employee_in_tree t x = .ok none ↔ countId t x = 0 := by
  rw [find_eq_preorder t x h]
  simp [countId, List.find?_eq_none, List.countP_eq_zero]

/-- On a well-keyed tree, a found node is a member carrying the id. -/
theorem find_some_spec (t : Node) (x : Int) (m : Node) (h : nodeWK t = true)
    (hf : find_employee_in_tree t x = .ok (some m)) :
    m ∈ preorder t ∧ matchesId m x = true := by
  rw [find_eq_preorder t x h] at hf
  simp only [Except.ok.injEq] at hf
  have h1 := List.mem_of_find?_eq_some hf
  have h2 := List.find?_some hf
  exact ⟨h1, by simpa using h2⟩

/-- On a well-keyed tree, some node is found iff the count is positive. -/
theorem find_isSome_iff (t : Node) (x : Int) (h : nodeWK t = true) :
    (∃ m, find_employee_in_tree t x = .ok (some m)) ↔ 0 < countId t x := by
  constructor
  · rintro ⟨m, hm⟩
    have := find_some_spec t x m h hm
    have : 0 < (preorder t).countP (fun m => matchesId m x) :=
      List.countP_pos_iff.mpr ⟨m, this.1, this.2⟩
    simpa [countId] using this
  · intro hc
    rw [find_eq_preorder t x h]
    cases hf : (preorder t).find? (fun m => matchesId m x) with
    | some m => exact ⟨m, rfl⟩
    | none =>
      rw [List.find?_eq_none] at hf
      simp [countId, List.countP_eq_zero.mpr hf] at hc

/-- On a well-keyed tree, `is_descendant` answers `False` iff the id does not
occur in the subtree. -/
theorem is_descendant_false_iff (n : Node) (x : Int) (h : nodeWK n = true) :
    is_descendant n x = .ok false ↔ countId n x = 0 := by
  rw [is_descendant_eq_any n x h]
  simp [countId, List.countP_eq_zero, List.any_eq_false]

/-! Section: `findPath` agrees with `find_employee_in_tree`

`add_employee_to_manager` mutates the node that `find_employee_in_tree`
returns; the path-based rendering is justified by this exact correspondence
(same traversal, same errors, and the found path addresses the found node). -/

theorem getAttr_eq_ok (n : Node) (k : String) (v : AttrVal) :
    getAttr n k = .ok v ↔ dictGet n.attrs k = some v := by
  unfold getAttr
  cases dictGet n.attrs k <;> simp

mutual

/-- Correspondence: `findPath` errs, misses, and finds exactly as `find_employee_in_tree`
does, and the found path addresses the found node, which carries id `x`. -/
theorem findPath_vs_find (n : Node) (x : Int) :
    (∃ e, findPath n x = .error e ∧ find_employee_in_tree n x = .error e) ∨
    (findPath n x = .ok none ∧ find_employee_in_tree n x = .ok none) ∨
    (∃ q m, findPath n x = .ok (some q) ∧ find_employee_in_tree n x = .ok (some m) ∧
      nodeAt n q = some m ∧ matchesId m x = true) := by
  cases n with
  | mk nm a cs =>
    cases hga : getAttr (.mk nm a cs) "id" with
    | error e =>
      exact .inl ⟨e, by simp [findPath, hga], by simp [find_employee_in_tree, hga]⟩
    | ok v =>
      cases hpe : pyEqInt v x with
      | true =>
        refine .inr (.inr ⟨[], .mk nm a cs, ?_, ?_, rfl, ?_⟩)
        · simp [findPath, hga, hpe]
        · simp [find_employee_in_tree, hga, hpe]
        · have hv : v = .int x := (pyEqInt_true_iff v x).mp hpe
          have hd : dictGet (Node.mk nm a cs).attrs "id" = some v :=
            (getAttr_eq_ok _ _ _).mp hga
          rw [hv] at hd
          simp [matchesId, intId?, hd]
      | false =>
        rcases findPathForest_vs_find cs x with ⟨e, h1, h2⟩ | ⟨h1, h2⟩ |
          ⟨i, p, m, c, h1, h2, hc, hn, hm⟩
        · exact .inl ⟨e, by simp [findPath, hga, hpe, h1], by
            simp [find_employee_in_tree, hga, hpe, h2]⟩
        · exact .inr (.inl ⟨by simp [findPath, hga, hpe, h1], by
            simp [find_employee_in_tree, hga, hpe, h2]⟩)
        · refine .inr (.inr ⟨i :: p, m, ?_, ?_, ?_, hm⟩)
          · simp [findPath, hga, hpe, h1]
          · simp [find_employee_in_tree, hga, hpe, h2]
          · simp [nodeAt, Node.children, hc, hn]

/-- Forest version of `findPath_vs_find`. -/
theorem findPathForest_vs_find (cs : List Node) (x : Int) :
    (∃ e, findPathForest cs x = .error e ∧ find_employee_in_forest cs x = .error e) ∨
    (findPathForest cs x = .ok none ∧ find_employee_in_forest cs x = .ok none) ∨
    (∃ i p m c, findPathForest cs x = .ok (some (i, p)) ∧
      find_employee_in_forest cs x = .ok (some m) ∧
      cs[i]? = some c ∧ nodeAt c p = some m ∧ matchesId m x = true) := by
  cases cs with
  | nil =>
    exact .inr (.inl ⟨by simp [findPathForest], by simp [find_employee_in_forest]⟩)
  | cons c rest =>
    rcases findPath_vs_find c x with ⟨e, h1, h2⟩ | ⟨h1, h2⟩ | ⟨q, m, h1, h2, hn, hm⟩
    · exact .inl ⟨e, by simp [findPathForest, h1], by simp [find_employee_in_forest, h2]⟩
    · rcases findPathForest_vs_find rest x with ⟨e, g1, g2⟩ | ⟨g1, g2⟩ |
        ⟨i, p, m, c', g1, g2, gc, gn, gm⟩
      · exact .inl ⟨e, by simp [findPathForest, h1, g1], by
          simp [find_employee_in_forest, h2, g2]⟩
      · exact .inr (.inl ⟨by simp [findPathForest, h1, g1], by
          simp [find_employee_in_forest, h2, g2]⟩)
      · refine .inr (.inr ⟨i + 1, p, m, c', ?_, ?_, ?_, gn, gm⟩)
        · simp [findPathForest, h1, g1]
        · simp [find_employee_in_forest, h2, g2]
        · simpa using gc
    · refine .inr (.inr ⟨0, q, m, c, ?_, ?_, by simp, hn, hm⟩)
      · simp [findPathForest, h1]
      · simp [find_employee_in_forest, h2]

end

/-! Section: Path, update and counting lemmas -/

theorem mem_of_getElem?_node (cs : List Node) (i : Nat) (c : Node) (h : cs[i]? = some c) :
    c ∈ cs := by
  obtain ⟨hlt, he⟩ := List.getElem?_eq_some_iff.mp h
  exact he ▸ List.getElem_mem hlt

theorem matchesId_attrs_eq (n n' : Node) (h : n.attrs = n'.attrs) (x : Int) :
    matchesId n x = matchesId n' x := by
  simp [matchesId, intId?, h]

theorem attrs_eraseChild (n : Node) (i : Nat) : (eraseChild n i).attrs = n.attrs := rfl

theorem attrs_appendChild (c n : Node) : (appendChild c n).attrs = n.attrs := rfl

theorem nodeAt_child (t : Node) (p : List Nat) (n : Node) (j : Nat) (c : Node)
    (hp : nodeAt t p = some n) (hc : n.children[j]? = some c) :
    nodeAt t (p ++ [j]) = some c := by
  induction p generalizing t with
  | nil =>
    simp [nodeAt] at hp
    subst hp
    simp [nodeAt, hc]
  | cons i p' ih =>
    simp only [nodeAt] at hp
    cases hg : t.children[i]? with
    | none => rw [hg] at hp; simp at hp
    | some d =>
      rw [hg] at hp
      simp only [List.cons_append, nodeAt, hg]
      exact ih d hp

theorem nodeAt_modifyAt_self (t : Node) (p : List Nat) (n : Node) (f : Node → Node)
    (hp : nodeAt t p = some n) :
    nodeAt (modifyAt t p f) p = some (f n) := by
  induction p generalizing t with
  | nil =>
    simp [nodeAt] at hp
    subst hp
    simp [nodeAt, modifyAt]
  | cons i p' ih =>
    cases t with
    | mk nm a cs =>
      simp only [nodeAt, Node.children] at hp
      cases hg : cs[i]? with
      | none => rw [hg] at hp; simp at hp
      | some c =>
        rw [hg] at hp
        have hlt : i < cs.length := (List.getElem?_eq_some_iff.mp hg).1
        simp only [modifyAt, hg, nodeAt, Node.children]
        rw [List.getElem?_set_self (by simpa using hlt)]
        exact ih c hp

theorem countIdF_set (cs : List Node) (i : Nat) (c c' : Node) (x : Int)
    (h : cs[i]? = some c) :
    countIdF (cs.set i c') x + countId c x = countIdF cs x + countId c' x := by
  induction cs generalizing i with
  | nil => simp at h
  | cons d rest ih =>
    cases i with
    | zero =>
      simp at h
      subst h
      simp [countIdF_cons]
      omega
    | succ j =>
      simp only [List.getElem?_cons_succ] at h
      simp only [List.set_cons_succ, countIdF_cons]
      have := ih j h
      omega

theorem countIdF_eraseIdx (cs : List Node) (i : Nat) (c : Node) (x : Int)
    (h : cs[i]? = some c) :
    countIdF (cs.eraseIdx i) x + countId c x = countIdF cs x := by
  induction cs generalizing i with
  | nil => simp at h
  | cons d rest ih =>
    cases i with
    | zero =>
      simp at h
      subst h
      simp [List.eraseIdx, countIdF_cons]
      omega
    | succ j =>
      simp only [List.getElem?_cons_succ] at h
      simp only [List.eraseIdx, countIdF_cons]
      have := ih j h
      omega

theorem countId_eraseChild (n : Node) (i : Nat) (c : Node) (x : Int)
    (h : n.children[i]? = some c) :
    countId (eraseChild n i) x + countId c x = countId n x := by
  cases n with
  | mk nm a cs =>
    simp only [Node.children] at h
    simp only [eraseChild, Node.name, Node.attrs, Node.children, countId_mk]
    rw [matchesId_attrs_eq (Node.mk nm a (cs.eraseIdx i)) (Node.mk nm a cs) rfl x]
    have := countIdF_eraseIdx cs i c x h
    omega

theorem countId_appendChild (c n : Node) (x : Int) :
    countId (appendChild c n) x = countId n x + countId c x := by
  cases n with
  | mk nm a cs =>
    simp only [appendChild, Node.name, Node.attrs, Node.children, countId_mk,
      countIdF_append, countIdF_cons, countIdF_nil]
    rw [matchesId_attrs_eq (Node.mk nm a (cs ++ [c])) (Node.mk nm a cs) rfl x]
    omega

theorem countId_setManagerId (n : Node) (m x : Int) :
    countId (setManagerId n m) x = countId n x := by
  cases n with
  | mk nm a cs =>
    have hi : intId? (Node.mk nm (dictSet a "manager_id" (.int m)) cs)
        = intId? (Node.mk nm a cs) := by
      simp [intId?, Node.attrs, dictGet_dictSet_ne a "id" "manager_id" (.int m) (by decide)]
    show countId (Node.mk nm (dictSet a "manager_id" (.int m)) cs) x = _
    rw [countId_mk, countId_mk]
    simp [matchesId, hi]

theorem modifyAt_count (t : Node) (p : List Nat) (n : Node) (f : Node → Node) (x : Int)
    (hp : nodeAt t p = some n) :
    countId (modifyAt t p f) x + countId n x = countId t x + countId (f n) x := by
  induction p generalizing t with
  | nil =>
    simp [nodeAt] at hp
    subst hp
    simp [modifyAt]
    omega
  | cons i p' ih =>
    cases t with
    | mk nm a cs =>
      simp only [nodeAt, Node.children] at hp
      cases hg : cs[i]? with
      | none => rw [hg] at hp; simp at hp
      | some c =>
        rw [hg] at hp
        simp only [modifyAt, hg, countId_mk]
        rw [matchesId_attrs_eq (Node.mk nm a (cs.set i (modifyAt c p' f)))
          (Node.mk nm a cs) rfl x]
        have h1 := countIdF_set cs i c (modifyAt c p' f) x hg
        have h2 := ih c hp
        omega

theorem nodeAt_mem_preorder (t : Node) (p : List Nat) (n : Node)
    (hp : nodeAt t p = some n) : n ∈ preorder t := by
  induction p generalizing t with
  | nil =>
    simp [nodeAt] at hp
    exact hp ▸ self_mem_preorder t
  | cons i p' ih =>
    cases t with
    | mk nm a cs =>
      simp only [nodeAt, Node.children] at hp
      cases hg : cs[i]? with
      | none => rw [hg] at hp; simp at hp
      | some c =>
        rw [hg] at hp
        rw [preorder_mk]
        exact List.mem_cons_of_mem _
          (mem_preorderForest_of_mem cs c (mem_of_getElem?_node cs i c hg) n (ih c hp))

theorem nodeWK_nodeAt (t : Node) (p : List Nat) (n : Node) (hwk : nodeWK t = true)
    (hp : nodeAt t p = some n) : nodeWK n = true := by
  induction p generalizing t with
  | nil => simp [nodeAt] at hp; exact hp ▸ hwk
  | cons i p' ih =>
    cases hg : t.children[i]? with
    | none =>
      simp only [nodeAt, hg] at hp
      exact Option.noConfusion hp
    | some c =>
      simp only [nodeAt, hg] at hp
      exact ih c (nodeWK_of_mem_forestWK _ c (mem_of_getElem?_node _ i c hg)
        (forestWK_of_nodeWK t hwk)) hp

theorem forestWK_set (cs : List Node) (i : Nat) (c' : Node) (h : forestWK cs = true)
    (hc' : nodeWK c' = true) : forestWK (cs.set i c') = true := by
  induction cs generalizing i with
  | nil => simpa using h
  | cons d rest ih =>
    rw [forestWK_cons] at h
    simp at h
    cases i with
    | zero => simp only [List.set_cons_zero, forestWK_cons]; simp [hc', h.2]
    | succ j =>
      simp only [List.set_cons_succ, forestWK_cons]
      simp [h.1, ih j h.2]

theorem forestWK_eraseIdx (cs : List Node) (i : Nat) (h : forestWK cs = true) :
    forestWK (cs.eraseIdx i) = true := by
  induction cs generalizing i with
  | nil => simpa using h
  | cons d rest ih =>
    rw [forestWK_cons] at h
    simp at h
    cases i with
    | zero => simpa [List.eraseIdx] using h.2
    | succ j =>
      simp only [List.eraseIdx, forestWK_cons]
      simp [h.1, ih j h.2]

theorem nodeWK_eraseChild (n : Node) (i : Nat) (h : nodeWK n = true) :
    nodeWK (eraseChild n i) = true := by
  cases n with
  | mk nm a cs =>
    have h1 := hasIntId_of_nodeWK _ h
    have h2 := forestWK_of_nodeWK _ h
    simp only [Node.children] at h2
    show nodeWK (.mk nm a (cs.eraseIdx i)) = true
    rw [nodeWK_mk]
    have h1' : hasIntId (Node.mk nm a (cs.eraseIdx i)) = true := by
      simpa [hasIntId, intId?, Node.attrs] using h1
    simp [h1', forestWK_eraseIdx cs i h2]

theorem nodeWK_appendChild (c n : Node) (hn : nodeWK n = true) (hc : nodeWK c = true) :
    nodeWK (appendChild c n) = true := by
  cases n with
  | mk nm a cs =>
    have h1 := hasIntId_of_nodeWK _ hn
    have h2 := forestWK_of_nodeWK _ hn
    simp only [Node.children] at h2
    show nodeWK (.mk nm a (cs ++ [c])) = true
    rw [nodeWK_mk, forestWK_append]
    have h1' : hasIntId (Node.mk nm a (cs ++ [c])) = true := by
      simpa [hasIntId, intId?, Node.attrs] using h1
    simp [h1', h2, forestWK_cons, forestWK, hc]

theorem nodeWK_setManagerId (n : Node) (m : Int) (h : nodeWK n = true) :
    nodeWK (setManagerId n m) = true := by
  cases n with
  | mk nm a cs =>
    have h1 := hasIntId_of_nodeWK _ h
    have h2 := forestWK_of_nodeWK _ h
    simp only [Node.children] at h2
    show nodeWK (.mk nm (dictSet a "manager_id" (.int m)) cs) = true
    rw [nodeWK_mk]
    have h1' : hasIntId (Node.mk nm (dictSet a "manager_id" (.int m)) cs) = true := by
      rw [← show setManagerId (Node.mk nm a cs) m
            = Node.mk nm (dictSet a "manager_id" (AttrVal.int m)) cs from rfl,
        hasIntId_setManagerId]
      exact h1
    simp [h1', h2]

theorem nodeWK_modifyAt (t : Node) (p : List Nat) (f : Node → Node)
    (hwk : nodeWK t = true) (hf : ∀ m, nodeWK m = true → nodeWK (f m) = true) :
    nodeWK (modifyAt t p f) = true := by
  induction p generalizing t with
  | nil =>
    cases t with
    | mk nm a cs => exact hf _ hwk
  | cons i p' ih =>
    cases t with
    | mk nm a cs =>
      cases hg : cs[i]? with
      | none => simpa [modifyAt, hg] using hwk
      | some c =>
        simp only [modifyAt, hg]
        have hcwk : nodeWK c = true :=
          nodeWK_of_mem_forestWK cs c (mem_of_getElem?_node cs i c hg)
            (by simpa [Node.children] using forestWK_of_nodeWK _ hwk)
        have h1 := hasIntId_of_nodeWK _ hwk
        rw [nodeWK_mk]
        have h1' : hasIntId (Node.mk nm a (cs.set i (modifyAt c p' f))) = true := by
          simpa [hasIntId, intId?, Node.attrs] using h1
        have h2 : forestWK cs = true := by
          simpa [Node.children] using forestWK_of_nodeWK _ hwk
        simp [h1', forestWK_set cs i _ h2 (ih c hcwk)]

/-- Applying `modifyAt` with an attribute-preserving function leaves the root's
attributes unchanged. -/
theorem attrs_modifyAt (t : Node) (p : List Nat) (f : Node → Node)
    (hf : ∀ m, (f m).attrs = m.attrs) : (modifyAt t p f).attrs = t.attrs := by
  cases p with
  | nil =>
    cases t with
    | mk nm a cs => exact hf _
  | cons i p' =>
    cases t with
    | mk nm a cs =>
      cases hg : cs[i]? with
      | none => simp [modifyAt, hg]
      | some c => simp [modifyAt, hg, Node.attrs]

mutual

theorem mem_preorder_trans (m n t : Node) (h1 : m ∈ preorder n) (h2 : n ∈ preorder t) :
    m ∈ preorder t := by
  cases t with
  | mk nm a cs =>
    rw [preorder_mk] at h2 ⊢
    rcases List.mem_cons.mp h2 with he | hf
    · rw [← preorder_mk]
      exact he ▸ h1
    · exact List.mem_cons_of_mem _ (mem_preorderForest_trans m n cs h1 hf)

theorem mem_preorderForest_trans (m n : Node) (cs : List Node) (h1 : m ∈ preorder n)
    (h2 : n ∈ preorderForest cs) : m ∈ preorderForest cs := by
  cases cs with
  | nil => simp [preorderForest] at h2
  | cons c rest =>
    rw [preorderForest_cons] at h2 ⊢
    rcases List.mem_append.mp h2 with hl | hr
    · exact List.mem_append_left _ (mem_preorder_trans m n c h1 hl)
    · exact List.mem_append_right _ (mem_preorderForest_trans m n rest h1 hr)

end

/-! Section: BFS search lemmas -/

theorem firstIdx_eq_none_iff (p : Node → Bool) (cs : List Node) :
    firstIdx p cs = none ↔ ∀ c ∈ cs, p c = false := by
  induction cs with
  | nil => simp [firstIdx]
  | cons c rest ih =>
    by_cases hc : p c
    · simp [firstIdx, hc]
    · cases hf : firstIdx p rest with
      | none =>
        simp only [firstIdx, hc, Bool.false_eq_true, not_false_eq_true, reduceIte, hf,
          Option.map_none', List.mem_cons, true_iff]
        intro d hd
        rcases hd with he | hd
        · subst he; simpa using hc
        · exact (ih.mp hf) d hd
      | some i =>
        simp only [firstIdx, hc, Bool.false_eq_true, not_false_eq_true, reduceIte, hf,
          Option.map_some']
        constructor
        · intro h; cases h
        · intro h
          have hnone := ih.mpr fun d hd => h d (List.mem_cons_of_mem _ hd)
          rw [hnone] at hf
          cases hf

theorem firstIdx_eq_some (p : Node → Bool) (cs : List Node) (i : Nat)
    (h : firstIdx p cs = some i) :
    ∃ c, cs[i]? = some c ∧ p c = true ∧
      ∀ j, j < i → ∀ d, cs[j]? = some d → p d = false := by
  induction cs generalizing i with
  | nil => simp [firstIdx] at h
  | cons c rest ih =>
    by_cases hc : p c
    · simp [firstIdx, hc] at h
      subst h
      exact ⟨c, by simp, hc, fun j hj => by omega⟩
    · simp only [firstIdx, hc, if_neg, Bool.false_eq_true, not_false_eq_true] at h
      cases hf : firstIdx p rest with
      | none => rw [hf] at h; simp at h
      | some i' =>
        rw [hf] at h
        simp at h
        subst h
        obtain ⟨c', hc', hp', hfirst⟩ := ih i' hf
        refine ⟨c', by simpa using hc', hp', ?_⟩
        intro j hj d hd
        cases j with
        | zero =>
          simp at hd
          exact hd ▸ (by simpa using hc)
        | succ j' =>
          simp only [List.getElem?_cons_succ] at hd
          exact hfirst j' (by omega) d hd

theorem firstIdx_find? (p : Node → Bool) (cs : List Node) (i : Nat) (c : Node)
    (h : firstIdx p cs = some i) (hc : cs[i]? = some c) : cs.find? p = some c := by
  induction cs generalizing i with
  | nil => simp [firstIdx] at h
  | cons d rest ih =>
    by_cases hd : p d
    · simp [firstIdx, hd] at h
      subst h
      simp at hc
      subst hc
      simp [List.find?_cons_of_pos, hd]
    · simp only [firstIdx, hd, if_neg, Bool.false_eq_true, not_false_eq_true] at h
      cases hf : firstIdx p rest with
      | none => rw [hf] at h; simp at h
      | some i' =>
        rw [hf] at h
        simp at h
        subst h
        simp only [List.getElem?_cons_succ] at hc
        rw [List.find?_cons_of_neg _ (by simpa using hd)]
        exact ih i' hf hc

/-- With every child's `attributes["id"]` an int, the imperative child scan
computes `firstIdx` (shifted by the starting index). -/
theorem scanChildren_eq (cs : List Node) (x : Int) (k : Nat)
    (h : ∀ c ∈ cs, hasIntId c = true) :
    scanChildren cs x k = .ok ((firstIdx (fun c => matchesId c x) cs).map (· + k)) := by
  induction cs generalizing k with
  | nil => simp [scanChildren, firstIdx]
  | cons c rest ih =>
    obtain ⟨i, hga, hid⟩ := getAttr_id_of_hasIntId c (h c (List.mem_cons_self ..))
    simp only [scanChildren, hga, pyEqInt_eq_matchesId c x i hid]
    by_cases hm : matchesId c x
    · simp [hm, firstIdx]
    · simp only [hm, Bool.false_eq_true, not_false_eq_true, if_neg, reduceIte]
      rw [ih (k + 1) (fun d hd => h d (List.mem_cons_of_mem _ hd))]
      simp only [firstIdx, hm, Bool.false_eq_true, if_neg, reduceIte]
      cases firstIdx (fun c => matchesId c x) rest with
      | none => simp
      | some j => simp; omega

theorem map_snd_childEntries (p : List Nat) (i₀ : Nat) (cs : List Node) :
    (childEntries p i₀ cs).map (·.2) = cs := by
  induction cs generalizing i₀ with
  | nil => rfl
  | cons c rest ih => simp [childEntries, ih]

theorem mem_childEntries (p : List Nat) (i₀ : Nat) (cs : List Node)
    (pn : List Nat × Node) (h : pn ∈ childEntries p i₀ cs) :
    ∃ j, cs[j]? = some pn.2 ∧ pn.1 = p ++ [i₀ + j] := by
  induction cs generalizing i₀ with
  | nil => simp [childEntries] at h
  | cons c rest ih =>
    simp only [childEntries, List.mem_cons] at h
    rcases h with he | h
    · exact ⟨0, by simp [he], by simp [he]⟩
    · obtain ⟨j, hj, hp⟩ := ih (i₀ + 1) h
      refine ⟨j + 1, by simpa using hj, ?_⟩
      rw [hp]
      congr 2
      omega

/-- On a well-keyed queue, the imperative BFS loop computes its pure mirror. -/
theorem bfs_remove_search_eq (x : Int) (q : List (List Nat × Node))
    (h : ∀ pn ∈ q, nodeWK pn.2 = true) :
    bfs_remove_search x q = .ok (searchPure x q) := by
  induction q using searchPure.induct x with
  | case1 => simp [bfs_remove_search, searchPure]
  | case2 p n rest i hf =>
    have hchild : ∀ c ∈ n.children, hasIntId c = true := fun c hc =>
      hasIntId_of_nodeWK c (nodeWK_of_mem_forestWK _ c hc
        (forestWK_of_nodeWK n (h (p, n) (List.mem_cons_self ..))))
    simp [bfs_remove_search, searchPure, scanChildren_eq n.children x 0 hchild, hf]
  | case3 p n rest hf ih =>
    have hchild : ∀ c ∈ n.children, hasIntId c = true := fun c hc =>
      hasIntId_of_nodeWK c (nodeWK_of_mem_forestWK _ c hc
        (forestWK_of_nodeWK n (h (p, n) (List.mem_cons_self ..))))
    have hq : ∀ pn ∈ rest ++ childEntries p 0 n.children, nodeWK pn.2 = true := by
      intro pn hpn
      rcases List.mem_append.mp hpn with hr | hc
      · exact h pn (List.mem_cons_of_mem _ hr)
      · obtain ⟨j, hj, _⟩ := mem_childEntries p 0 n.children pn hc
        exact nodeWK_of_mem_forestWK _ _ (mem_of_getElem?_node _ j _ hj)
          (forestWK_of_nodeWK n (h (p, n) (List.mem_cons_self ..)))
    simp only [bfs_remove_search, searchPure, scanChildren_eq n.children x 0 hchild, hf,
      Option.map_none]
    exact ih hq

/-- The breadth-first node list is the queue followed by the scanned children:
every non-root node appears in the scan exactly where BFS visits it. -/
theorem bfsListN_eq_append_scanOrderN (q : List Node) :
    bfsListN q = q ++ scanOrderN q := by
  induction q using scanOrderN.induct with
  | case1 => simp [bfsListN, scanOrderN]
  | case2 c cs ih =>
    simp only [bfsListN, scanOrderN, ih]
    simp

theorem mem_bfsListN (q : List Node) (m : Node) :
    m ∈ bfsListN q ↔ ∃ n ∈ q, m ∈ preorder n := by
  induction q using scanOrderN.induct with
  | case1 => simp [bfsListN]
  | case2 c cs ih =>
    rw [bfsListN]
    constructor
    · intro h
      rcases List.mem_cons.mp h with he | h
      · exact ⟨c, List.mem_cons_self .., he ▸ self_mem_preorder c⟩
      · obtain ⟨n, hn, hm⟩ := ih.mp h
        rcases List.mem_append.mp hn with hr | hc
        · exact ⟨n, List.mem_cons_of_mem _ hr, hm⟩
        · refine ⟨c, List.mem_cons_self .., ?_⟩
          cases c with
          | mk nm a cs' =>
            rw [preorder_mk]
            exact List.mem_cons_of_mem _
              (mem_preorderForest_of_mem cs' n (by simpa [Node.children] using hc) m hm)
    · rintro ⟨n, hn, hm⟩
      rcases List.mem_cons.mp hn with he | hr
      · subst he
        rcases mem_preorder_elim n m hm with he' | ⟨c', hc', hm'⟩
        · exact List.mem_cons.mpr (.inl he')
        · exact List.mem_cons_of_mem _ (ih.mpr ⟨c', List.mem_append_right _ hc', hm'⟩)
      · exact List.mem_cons_of_mem _ (ih.mpr ⟨n, List.mem_append_left _ hr, hm⟩)

/-- A failed pure search means no scanned child matches. -/
theorem searchPure_none_iff (x : Int) (q : List (List Nat × Node)) :
    searchPure x q = none ↔
      ∀ c ∈ scanOrderN (q.map (·.2)), matchesId c x = false := by
  induction q using searchPure.induct x with
  | case1 => simp [searchPure, scanOrderN]
  | case2 p n rest i hf =>
    simp only [searchPure, hf]
    obtain ⟨c, hc, hp, _⟩ := firstIdx_eq_some _ _ _ hf
    constructor
    · intro h; cases h
    · intro h
      have hcm : matchesId c x = false := by
        refine h c ?_
        show c ∈ scanOrderN (n :: rest.map (·.2))
        rw [scanOrderN]
        exact List.mem_append_left _ (mem_of_getElem?_node _ i c hc)
      exact absurd hp (by simp [hcm])
  | case3 p n rest hf ih =>
    simp only [searchPure, hf, ih]
    have hall := (firstIdx_eq_none_iff _ n.children).mp hf
    constructor
    · intro h c hc
      show _
      rw [show (((p, n) :: rest).map (·.2)) = n :: rest.map (·.2) from rfl,
        scanOrderN] at hc
      rcases List.mem_append.mp hc with h1 | h2
      · exact hall c h1
      · refine h c ?_
        simpa [map_snd_childEntries] using h2
    · intro h c hc
      refine h c ?_
      rw [show (((p, n) :: rest).map (·.2)) = n :: rest.map (·.2) from rfl, scanOrderN]
      refine List.mem_append_right _ ?_
      simpa [map_snd_childEntries] using hc

/-- A successful pure search yields a valid (parent path, child index) pair
whose child is the first match in breadth-first scanning order. -/
theorem searchPure_some_spec (x : Int) (t : Node) (q : List (List Nat × Node))
    (pr : List Nat) (i : Nat) :
    (∀ pn ∈ q, nodeAt t pn.1 = some pn.2) → searchPure x q = some (pr, i) →
    ∃ par c, nodeAt t pr = some par ∧ par.children[i]? = some c ∧
      matchesId c x = true ∧
      (∀ j, j < i → ∀ d, par.children[j]? = some d → matchesId d x = false) ∧
      (scanOrderN (q.map (·.2))).find? (fun m => matchesId m x) = some c := by
  induction q using searchPure.induct x with
  | case1 =>
    intro _ hs
    simp [searchPure] at hs
  | case2 p n rest i' hf =>
    intro hinv hs
    simp only [searchPure, hf, Option.some.injEq, Prod.mk.injEq] at hs
    obtain ⟨he1, he2⟩ := hs
    subst he1
    subst he2
    obtain ⟨c, hc, hp, hfirst⟩ := firstIdx_eq_some _ _ _ hf
    have hn : nodeAt t p = some n := hinv (p, n) (List.mem_cons_self ..)
    refine ⟨n, c, hn, hc, hp, hfirst, ?_⟩
    show (scanOrderN (n :: rest.map (·.2))).find? _ = some c
    rw [scanOrderN, List.find?_append, firstIdx_find? _ _ _ c hf hc]
    rfl
  | case3 p n rest hf ih =>
    intro hinv hs
    simp only [searchPure, hf] at hs
    have hinv' : ∀ pn ∈ rest ++ childEntries p 0 n.children,
        nodeAt t pn.1 = some pn.2 := by
      intro pn hpn
      rcases List.mem_append.mp hpn with hr | hcE
      · exact hinv pn (List.mem_cons_of_mem _ hr)
      · obtain ⟨j, hj, hp1⟩ := mem_childEntries p 0 n.children pn hcE
        rw [hp1]
        have := nodeAt_child t p n j pn.2 (hinv (p, n) (List.mem_cons_self ..)) hj
        simpa using this
    obtain ⟨par, c, h1, h2, h3, h4, h5⟩ := ih hinv' hs
    refine ⟨par, c, h1, h2, h3, h4, ?_⟩
    show (scanOrderN (n :: rest.map (·.2))).find? _ = some c
    rw [scanOrderN, List.find?_append]
    have hnone : n.children.find? (fun m => matchesId m x) = none :=
      List.find?_eq_none.mpr
        (by intro d hd; simp [(firstIdx_eq_none_iff _ _).mp hf d hd])
    rw [hnone]
    simp only [Option.none_or]
    have hmap : (rest ++ childEntries p 0 n.children).map (·.2)
        = rest.map (·.2) ++ n.children := by
      simp [map_snd_childEntries]
    rw [hmap] at h5
    exact h5

/-! Section: `find_and_remove_employee`: assembled specification -/

theorem mem_preorder_of_nodeAt_child (t : Node) (p : List Nat) (par c : Node) (i : Nat)
    (hp : nodeAt t p = some par) (hc : par.children[i]? = some c) : c ∈ preorder t :=
  mem_preorder_trans c par t (child_mem_preorder par c (mem_of_getElem?_node _ i c hc))
    (nodeAt_mem_preorder t p par hp)

/-- Every node of `t` is the root or a scanned child of the removal BFS. -/
theorem mem_preorder_cases_scan (t m : Node) (hm : m ∈ preorder t) :
    m = t ∨ m ∈ scanOrderN [t] := by
  have h1 : m ∈ bfsListN [t] :=
    (mem_bfsListN [t] m).mpr ⟨t, List.mem_cons_self .., hm⟩
  rw [bfsListN_eq_append_scanOrderN] at h1
  simpa using List.mem_append.mp h1

/-- The detach operation leaves the tree untouched and reports "not found"
exactly when the target is the root's id or absent. -/
theorem far_none_iff (t : Node) (x : Int) (hwk : nodeWK t = true) :
    find_and_remove_employee t x = .ok (none, t) ↔
      (matchesId t x = true ∨ countId t x = 0) := by
  obtain ⟨i₀, hga, hid⟩ := getAttr_id_of_hasIntId t (hasIntId_of_nodeWK t hwk)
  simp only [find_and_remove_employee, hga, pyEqInt_eq_matchesId t x i₀ hid]
  by_cases hm : matchesId t x
  · simp [hm]
  · simp only [hm, Bool.false_eq_true, not_false_eq_true, reduceIte]
    have hq : ∀ pn ∈ [(([] : List Nat), t)], nodeWK pn.2 = true := by
      intro pn hpn
      simp at hpn
      rw [hpn]
      exact hwk
    rw [bfs_remove_search_eq x [([], t)] hq]
    cases hsp : searchPure x [([], t)] with
    | none =>
      have hscan := (searchPure_none_iff x [([], t)]).mp hsp
      have hcount : countId t x = 0 := by
        refine List.countP_eq_zero.mpr ?_
        intro m hmem
        rcases mem_preorder_cases_scan t m hmem with he | hsc
        · simpa [he] using hm
        · simpa using hscan m hsc
      simp [hm, hcount]
    | some pi =>
      obtain ⟨p, i⟩ := pi
      obtain ⟨par, c, h1, h2, h3, _, _⟩ :=
        searchPure_some_spec x t [([], t)] p i (by simp [nodeAt]) hsp
      have hcpos : 0 < countId t x :=
        List.countP_pos_iff.mpr ⟨c, mem_preorder_of_nodeAt_child t p par c i h1 h2, h3⟩
      simp only [h1, Option.some_bind, h2]
      constructor
      · intro hcontra
        simp at hcontra
      · intro hor
        rcases hor with hor | hor
        · exact absurd hor (by simp [hm])
        · omega

/-- Specification of a successful detach: the removed node carries the target
id, is the first match in breadth-first order, the id-multiset splits, and the
tree is rebuilt by splicing one child (sibling order preserved). -/
theorem far_some_spec (t : Node) (x : Int) (r t' : Node) (hwk : nodeWK t = true)
    (h : find_and_remove_employee t x = .ok (some r, t')) :
    matchesId r x = true ∧ matchesId t x = false ∧
    (∀ y, countId t' y + countId r y = countId t y) ∧
    r ∈ preorder t ∧ nodeWK t' = true ∧ t'.attrs = t.attrs ∧
    (bfsNodes t).tail.find? (fun m => matchesId m x) = some r ∧
    (∃ p i par, nodeAt t p = some par ∧ par.children[i]? = some r ∧
      (∀ j, j < i → ∀ d, par.children[j]? = some d → matchesId d x = false) ∧
      t' = modifyAt t p (fun m => eraseChild m i)) := by
  obtain ⟨i₀, hga, hid⟩ := getAttr_id_of_hasIntId t (hasIntId_of_nodeWK t hwk)
  simp only [find_and_remove_employee, hga, pyEqInt_eq_matchesId t x i₀ hid] at h
  by_cases hm : matchesId t x
  · simp [hm] at h
  · simp only [hm, Bool.false_eq_true, not_false_eq_true, reduceIte] at h
    have hq : ∀ pn ∈ [(([] : List Nat), t)], nodeWK pn.2 = true := by
      intro pn hpn
      simp at hpn
      rw [hpn]
      exact hwk
    rw [bfs_remove_search_eq x [([], t)] hq] at h
    cases hsp : searchPure x [([], t)] with
    | none =>
      rw [hsp] at h
      simp at h
    | some pi =>
      obtain ⟨p, i⟩ := pi
      rw [hsp] at h
      obtain ⟨par, c, h1, h2, h3, h4, h5⟩ :=
        searchPure_some_spec x t [([], t)] p i (by simp [nodeAt]) hsp
      simp only [h1, Option.some_bind, h2, Except.ok.injEq, Prod.mk.injEq] at h
      obtain ⟨hr, ht'⟩ := h
      have hrc : r = c := by
        have := hr.symm
        simpa using this
      subst hrc
      subst ht'
      refine ⟨h3, by simpa using hm, ?_,
        mem_preorder_of_nodeAt_child t p par r i h1 h2, ?_, ?_, ?_,
        p, i, par, h1, h2, h4, rfl⟩
      · intro y
        have hmc : countId (modifyAt t p fun m => eraseChild m i) y + countId par y
            = countId t y + countId (eraseChild par i) y :=
          modifyAt_count t p par (fun m => eraseChild m i) y h1
        have hec := countId_eraseChild par i r y h2
        omega
      · exact nodeWK_modifyAt t p _ hwk (fun m hwm => nodeWK_eraseChild m i hwm)
      · exact attrs_modifyAt t p _ (fun m => attrs_eraseChild m i)
      · have htail : (bfsNodes t).tail = scanOrderN [t] := by
          rw [bfsNodes, bfsListN_eq_append_scanOrderN]
          rfl
        rw [htail]
        exact h5

/-- When the target id occurs below a non-matching root, detach succeeds. -/
theorem far_some_exists (t : Node) (x : Int) (hwk : nodeWK t = true)
    (hm : matchesId t x = false) (hc : 0 < countId t x) :
    ∃ r t', find_and_remove_employee t x = .ok (some r, t') := by
  obtain ⟨i₀, hga, hid⟩ := getAttr_id_of_hasIntId t (hasIntId_of_nodeWK t hwk)
  simp only [find_and_remove_employee, hga, pyEqInt_eq_matchesId t x i₀ hid]
  simp only [hm, Bool.false_eq_true, not_false_eq_true, reduceIte]
  have hq : ∀ pn ∈ [(([] : List Nat), t)], nodeWK pn.2 = true := by
    intro pn hpn
    simp at hpn
    rw [hpn]
    exact hwk
  rw [bfs_remove_search_eq x [([], t)] hq]
  cases hsp : searchPure x [([], t)] with
  | none =>
    have hscan := (searchPure_none_iff x [([], t)]).mp hsp
    have hzero : countId t x = 0 := by
      refine List.countP_eq_zero.mpr ?_
      intro m hmem
      rcases mem_preorder_cases_scan t m hmem with he | hsc
      · simpa [he] using hm
      · simpa using hscan m hsc
    omega
  | some pi =>
    obtain ⟨p, i⟩ := pi
    obtain ⟨par, c, h1, h2, _, _, _⟩ :=
      searchPure_some_spec x t [([], t)] p i (by simp [nodeAt]) hsp
    exact ⟨c, modifyAt t p (fun m => eraseChild m i), by simp [h1, h2]⟩

/-! Section: Uniqueness and attach lemmas -/

mutual

theorem nodeWK_of_mem_preorder (t m : Node) (hwk : nodeWK t = true)
    (hm : m ∈ preorder t) : nodeWK m = true := by
  cases t with
  | mk nm a cs =>
    rw [preorder_mk] at hm
    rcases List.mem_cons.mp hm with he | hf
    · exact he ▸ hwk
    · exact forestWK_of_mem_preorderForest cs m (forestWK_of_nodeWK _ hwk) hf

theorem forestWK_of_mem_preorderForest (cs : List Node) (m : Node)
    (hwk : forestWK cs = true) (hm : m ∈ preorderForest cs) : nodeWK m = true := by
  cases cs with
  | nil => simp [preorderForest] at hm
  | cons c rest =>
    rw [forestWK_cons] at hwk
    simp at hwk
    rw [preorderForest_cons] at hm
    rcases List.mem_append.mp hm with hl | hr
    · exact nodeWK_of_mem_preorder c m hwk.1 hl
    · exact forestWK_of_mem_preorderForest rest m hwk.2 hr

end

theorem eq_of_countP_le_one {α : Type} (l : List α) (p : α → Bool)
    (h : l.countP p ≤ 1) (a b : α) (ha : a ∈ l) (hb : b ∈ l)
    (hpa : p a = true) (hpb : p b = true) : a = b := by
  have hfa : a ∈ l.filter p := List.mem_filter.mpr ⟨ha, hpa⟩
  have hfb : b ∈ l.filter p := List.mem_filter.mpr ⟨hb, hpb⟩
  rw [List.countP_eq_length_filter] at h
  cases hl : l.filter p with
  | nil => rw [hl] at hfa; simp at hfa
  | cons x rest =>
    cases rest with
    | nil =>
      rw [hl] at hfa hfb
      simp at hfa hfb
      rw [hfa, hfb]
    | cons y rest' =>
      rw [hl] at h
      simp at h

theorem countId_le_one_of_uniqueIds (t : Node) (hu : uniqueIds t) (x : Int) :
    countId t x ≤ 1 := by
  have h := List.nodup_iff_count_le_one.mp hu x
  rw [List.count_filterMap] at h
  simpa [countId, matchesId] using h

/-- Attach succeeds: `add_employee_to_manager` succeeds on any well-keyed tree containing the
manager id, appending at the first pre-order match. -/
theorem add_spec (t : Node) (m : Int) (emp : Node) (hwk : nodeWK t = true)
    (hpos : 0 < countId t m) :
    ∃ q mn, findPath t m = .ok (some q) ∧ nodeAt t q = some mn ∧
      matchesId mn m = true ∧
      add_employee_to_manager t m emp = .ok (modifyAt t q (appendChild emp)) := by
  obtain ⟨mgr, hmgr⟩ := (find_isSome_iff t m hwk).mpr hpos
  rcases findPath_vs_find t m with ⟨e, h1, h2⟩ | ⟨h1, h2⟩ | ⟨q, mn, h1, h2, h3, h4⟩
  · rw [hmgr] at h2; cases h2
  · rw [hmgr] at h2; cases h2
  · refine ⟨q, mn, h1, h3, ?_, ?_⟩
    · rw [hmgr] at h2
      simp at h2
      exact h2 ▸ h4
    · simp [add_employee_to_manager, h1]

theorem preorder_eq_cons (t : Node) : ∃ rest, preorder t = t :: rest := by
  cases t with
  | mk nm a cs => exact ⟨preorderForest cs, preorder_mk nm a cs⟩

/-! Section: The reparent operation: success analysis -/

/-- A successful reparent implies the four validated conditions. -/
theorem reparent_success_inv (t : Node) (e m : Int) (t₂ : Node) (hwk : nodeWK t = true)
    (h : update_employee_manager_core t e m = .ok t₂) :
    0 < countId t m ∧ 0 < countId t e ∧ e ≠ m ∧
      ∀ empN, find_employee_in_tree t e = .ok (some empN) → countId empN m = 0 := by
  have hm : 0 < countId t m := by
    by_contra hx
    have h0 : countId t m = 0 := by omega
    have hfm : find_employee_in_tree t m = .ok none := (find_none_iff t m hwk).mpr h0
    unfold update_employee_manager_core at h
    rw [hfm] at h
    simp at h
  obtain ⟨mgr, hfm⟩ := (find_isSome_iff t m hwk).mpr hm
  have hem : e ≠ m := by
    intro hx
    unfold update_employee_manager_core at h
    rw [hfm] at h
    simp [hx] at h
  have he : 0 < countId t e := by
    by_contra hx
    have h0 : countId t e = 0 := by omega
    have hfe : find_employee_in_tree t e = .ok none := (find_none_iff t e hwk).mpr h0
    unfold update_employee_manager_core at h
    rw [hfm] at h
    simp [show (e == m) = false by simp [hem], hfe] at h
  obtain ⟨emp, hfe⟩ := (find_isSome_iff t e hwk).mpr he
  refine ⟨hm, he, hem, ?_⟩
  intro empN hN
  rw [hfe] at hN
  simp at hN
  subst hN
  have hmem := (find_some_spec t e emp hwk hfe).1
  by_contra hx
  have hpos : 0 < countId emp m := by omega
  have hdt : is_descendant emp m = .ok true := by
    rw [is_descendant_eq_any emp m (nodeWK_of_mem_preorder t emp hwk hmem)]
    obtain ⟨a, ha, hpa⟩ := List.countP_pos_iff.mp hpos
    simp only [Except.ok.injEq]
    exact List.any_eq_true.mpr ⟨a, ha, hpa⟩
  unfold update_employee_manager_core at h
  rw [hfm] at h
  simp [show (e == m) = false by simp [hem], hfe, hdt] at h

/-- The full success pipeline: under the data-model invariant, when the four
validation conditions hold, detach finds the unique employee node, attach
succeeds, and the saved tree preserves the id-multiset. -/
theorem reparent_success_spec (t : Node) (e m : Int)
    (hwk : nodeWK t = true) (hu : uniqueIds t)
    (hm : 0 < countId t m) (he : 0 < countId t e) (hne : e ≠ m)
    (hemp : ∀ empN, find_employee_in_tree t e = .ok (some empN) → countId empN m = 0) :
    ∃ r t₁ q mn,
      find_and_remove_employee t e = .ok (some r, t₁) ∧
      matchesId r e = true ∧
      add_employee_to_manager t₁ m (setManagerId r m) = .ok
        (modifyAt t₁ q (appendChild (setManagerId r m))) ∧
      findPath t₁ m = .ok (some q) ∧ nodeAt t₁ q = some mn ∧ matchesId mn m = true ∧
      update_employee_manager_core t e m = .ok
        (modifyAt t₁ q (appendChild (setManagerId r m))) ∧
      (∀ y, countId (modifyAt t₁ q (appendChild (setManagerId r m))) y = countId t y) ∧
      nodeWK (modifyAt t₁ q (appendChild (setManagerId r m))) = true ∧
      countId t₁ e = 0 ∧ countId r m = 0 ∧ matchesId t e = false ∧
      (modifyAt t₁ q (appendChild (setManagerId r m))).attrs = t.attrs ∧
      nodeWK t₁ = true := by
  obtain ⟨emp, hfe⟩ := (find_isSome_iff t e hwk).mpr he
  obtain ⟨hempmem, hempmatch⟩ := find_some_spec t e emp hwk hfe
  have hrootF : matchesId t e = false := by
    by_contra hx
    simp at hx
    have hft : find_employee_in_tree t e = .ok (some t) := by
      rw [find_eq_preorder t e hwk]
      obtain ⟨rest, hpre⟩ := preorder_eq_cons t
      rw [hpre, List.find?_cons_of_pos _ (by simpa using hx)]
    have h0 := hemp t hft
    omega
  obtain ⟨r, t₁, hfar⟩ := far_some_exists t e hwk hrootF he
  obtain ⟨hrm, _, hsplit, hrmem, hwk₁, hattrs₁, _, _⟩ := far_some_spec t e r t₁ hwk hfar
  have hre : r = emp := eq_of_countP_le_one (preorder t) (fun n => matchesId n e)
    (countId_le_one_of_uniqueIds t hu e) r emp hrmem hempmem hrm hempmatch
  have hrm0 : countId r m = 0 := hre ▸ hemp emp hfe
  have ht₁m : 0 < countId t₁ m := by
    have := hsplit m
    omega
  have ht₁e : countId t₁ e = 0 := by
    have h1 := hsplit e
    have h2 : 0 < countId r e := countId_pos_of_matchesId r e hrm
    have h3 : countId t e ≤ 1 := countId_le_one_of_uniqueIds t hu e
    omega
  obtain ⟨q, mn, hfp, hna, hmn, hadd⟩ := add_spec t₁ m (setManagerId r m) hwk₁ ht₁m
  have hdesc : is_descendant emp m = .ok false :=
    (is_descendant_false_iff emp m (nodeWK_of_mem_preorder t emp hwk hempmem)).mpr
      (hemp emp hfe)
  obtain ⟨mgr, hmgr⟩ := (find_isSome_iff t m hwk).mpr hm
  have hcore : update_employee_manager_core t e m = .ok
      (modifyAt t₁ q (appendChild (setManagerId r m))) := by
    unfold update_employee_manager_core
    simp only [hmgr, show (e == m) = false by simp [hne], Bool.false_eq_true, reduceIte,
      hfe, hdesc, hfar, hadd]
  have hwk₂ : nodeWK (modifyAt t₁ q (appendChild (setManagerId r m))) = true :=
    nodeWK_modifyAt t₁ q _ hwk₁ (fun mm hmm => nodeWK_appendChild _ mm hmm
      (nodeWK_setManagerId r m (nodeWK_of_mem_preorder t r hwk hrmem)))
  have hcount₂ : ∀ y, countId (modifyAt t₁ q (appendChild (setManagerId r m))) y
      = countId t y := by
    intro y
    have hmc : countId (modifyAt t₁ q (appendChild (setManagerId r m))) y + countId mn y
        = countId t₁ y + countId (appendChild (setManagerId r m) mn) y :=
      modifyAt_count t₁ q mn (appendChild (setManagerId r m)) y hna
    rw [countId_appendChild, countId_setManagerId] at hmc
    have := hsplit y
    omega
  have hattrs₂ : (modifyAt t₁ q (appendChild (setManagerId r m))).attrs = t.attrs := by
    rw [attrs_modifyAt t₁ q _ (fun mm => attrs_appendChild _ mm), hattrs₁]
  exact ⟨r, t₁, q, mn, hfar, hrm, hadd, hfp, hna, hmn, hcore, hcount₂, hwk₂, ht₁e, hrm0,
    hrootF, hattrs₂, hwk₁⟩

/-! Section: Concrete test data (spec §8 scenario: CEO 1, A 2 with child B 3, sibling C 4) -/

/-- CEO(id 1) with children A(id 2, one child B(id 3)) and C(id 4). -/
def exTree : Node :=
  .mk "CEO" [("id", .int 1), ("title", .str "CEO"), ("manager_id", .int 0)]
    [ .mk "A" [("id", .int 2), ("manager_id", .int 1)]
        [ .mk "B" [("id", .int 3), ("manager_id", .int 2)] [] ],
      .mk "C" [("id", .int 4), ("manager_id", .int 1)] [] ]

/-- The node B(id 3) as detached from `exTree`. -/
def exNodeB : Node := .mk "B" [("id", .int 3), ("manager_id", .int 2)] []

/-- The tree `exTree` after detaching B. -/
def exDetached : Node :=
  .mk "CEO" [("id", .int 1), ("title", .str "CEO"), ("manager_id", .int 0)]
    [ .mk "A" [("id", .int 2), ("manager_id", .int 1)] [],
      .mk "C" [("id", .int 4), ("manager_id", .int 1)] [] ]

/-- The tree `exTree` after the reparent of B(3) under C(4). -/
def exMoved : Node :=
  .mk "CEO" [("id", .int 1), ("title", .str "CEO"), ("manager_id", .int 0)]
    [ .mk "A" [("id", .int 2), ("manager_id", .int 1)] [],
      .mk "C" [("id", .int 4), ("manager_id", .int 1)]
        [ .mk "B" [("id", .int 3), ("manager_id", .int 4)] [] ] ]

/-! Section: Claims -/

/-- C1: for every loaded tree (well-keyed, ids unique per the data-model
invariant) and every request `(employeeId, newManagerId)`, the reparent
operation succeeds iff the new manager exists, the employee exists, the two
ids differ, and the new manager does not occur in the subtree rooted at the
employee node. -/
theorem claim_C1 (t : Node) (e m : Int) (hwk : nodeWK t = true) (hu : uniqueIds t) :
    (update_employee_manager_route t e m).2 = .success ↔
      (0 < countId t m ∧ 0 < countId t e ∧ e ≠ m ∧
        ∀ empN, find_employee_in_tree t e = .ok (some empN) → countId empN m = 0) := by
  constructor
  · intro hs
    unfold update_employee_manager_route at hs
    cases hc : update_employee_manager_core t e m with
    | ok t₂ => exact reparent_success_inv t e m t₂ hwk hc
    | error err =>
      rw [hc] at hs
      cases err <;> simp at hs
  · rintro ⟨hm, he, hne, hemp⟩
    obtain ⟨r, t₁, q, mn, _, _, _, _, _, _, hcore, _⟩ :=
      reparent_success_spec t e m hwk hu hm he hne hemp
    simp [update_employee_manager_route, hcore]

/-- Witness for C1 at the concrete scenario tree, moving B(3) under C(4). -/
theorem claim_C1_witness :
    (update_employee_manager_route exTree 3 4).2 = .success ↔
      (0 < countId exTree 4 ∧ 0 < countId exTree 3 ∧ (3 : Int) ≠ 4 ∧
        ∀ empN, find_employee_in_tree exTree 3 = .ok (some empN) →
          countId empN 4 = 0) :=
  claim_C1 exTree 3 4 (by decide) (by decide)

/-- C3: the persisted store is overwritten only when all validation and
mutation steps succeed; on every failure outcome the store is unchanged. -/
theorem claim_C3 (t : Node) (e m : Int)
    (h : (update_employee_manager_route t e m).2 ≠ .success) :
    (update_employee_manager_route t e m).1 = t := by
  unfold update_employee_manager_route at h ⊢
  cases hc : update_employee_manager_core t e m with
  | ok t₂ =>
    rw [hc] at h
    simp at h
  | error err => cases err <;> rfl

/-- Witness for C3: the rejected self-manager request leaves the store
untouched. -/
theorem claim_C3_witness :
    (update_employee_manager_route exTree 2 2).2 ≠ .success ∧
      (update_employee_manager_route exTree 2 2).1 = exTree :=
  ⟨by decide, claim_C3 exTree 2 2 (by decide)⟩

/-- C4: the four validation checks run in the fixed source order — manager
existence (404), self-management (400), employee existence (404), cycle
prevention (400) — so a request with `employeeId = newManagerId` and that id
absent is answered 404 (manager check first), not 400. -/
theorem claim_C4 (t : Node) (e m : Int) (hwk : nodeWK t = true) :
    (countId t m = 0 →
      update_employee_manager_route t e m
        = (t, .http 404 "Novo manager não encontrado")) ∧
    (0 < countId t m → e = m →
      update_employee_manager_route t e m
        = (t, .http 400 "Um funcionário não pode ser manager de si mesmo")) ∧
    (0 < countId t m → e ≠ m → countId t e = 0 →
      update_employee_manager_route t e m
        = (t, .http 404 "Funcionário não encontrado")) ∧
    (0 < countId t m → e ≠ m →
      (∀ emp, find_employee_in_tree t e = .ok (some emp) → 0 < countId emp m) →
      0 < countId t e →
      update_employee_manager_route t e m
        = (t, .http 400 "Criação de loop hierárquico não permitida")) ∧
    (countId t m = 0 → e = m →
      update_employee_manager_route t e m
        = (t, .http 404 "Novo manager não encontrado")) := by
  have c1 : countId t m = 0 →
      update_employee_manager_route t e m
        = (t, .http 404 "Novo manager não encontrado") := by
    intro h0
    have hfm := (find_none_iff t m hwk).mpr h0
    simp [update_employee_manager_route, update_employee_manager_core, hfm]
  refine ⟨c1, ?_, ?_, ?_, fun h0 _ => c1 h0⟩
  · intro hm he
    obtain ⟨mgr, hfm⟩ := (find_isSome_iff t m hwk).mpr hm
    simp [update_employee_manager_route, update_employee_manager_core, hfm, he]
  · intro hm hne h0
    obtain ⟨mgr, hfm⟩ := (find_isSome_iff t m hwk).mpr hm
    have hfe := (find_none_iff t e hwk).mpr h0
    simp [update_employee_manager_route, update_employee_manager_core, hfm,
      show (e == m) = false by simp [hne], hfe]
  · intro hm hne hdesc he
    obtain ⟨mgr, hfm⟩ := (find_isSome_iff t m hwk).mpr hm
    obtain ⟨emp, hfe⟩ := (find_isSome_iff t e hwk).mpr he
    have hmem := (find_some_spec t e emp hwk hfe).1
    have hdt : is_descendant emp m = .ok true := by
      rw [is_descendant_eq_any emp m (nodeWK_of_mem_preorder t emp hwk hmem)]
      obtain ⟨a, ha, hpa⟩ := List.countP_pos_iff.mp (hdesc emp hfe)
      simp only [Except.ok.injEq]
      exact List.any_eq_true.mpr ⟨a, ha, hpa⟩
    simp [update_employee_manager_route, update_employee_manager_core, hfm,
      show (e == m) = false by simp [hne], hfe, hdt]

/-- Witness for C4: id 99 is absent, so the request `(99, 99)` is answered
with the manager-not-found 404, not with the self-management 400. -/
theorem claim_C4_witness :
    update_employee_manager_route exTree 99 99
      = (exTree, .http 404 "Novo manager não encontrado") :=
  (claim_C4 exTree 99 99 (by decide)).2.2.2.2 (by decide) rfl

/-- C5: on a tree whose ids are pairwise distinct, a successful reparent
preserves the id-multiset — the saved tree has exactly the same ids, each
appearing exactly once. -/
theorem claim_C5 (t : Node) (e m : Int) (t₂ : Node) (hwk : nodeWK t = true)
    (hu : uniqueIds t)
    (hs : update_employee_manager_route t e m = (t₂, .success)) :
    (∀ x, countId t₂ x = countId t x) ∧ (∀ x, countId t₂ x ≤ 1) := by
  have hcore : update_employee_manager_core t e m = .ok t₂ := by
    unfold update_employee_manager_route at hs
    cases hc : update_employee_manager_core t e m with
    | ok tt =>
      rw [hc] at hs
      simp at hs
      rw [hs]
    | error err =>
      rw [hc] at hs
      cases err <;> simp at hs
  obtain ⟨hm, he, hne, hemp⟩ := reparent_success_inv t e m t₂ hwk hcore
  obtain ⟨r, t₁, q, mn, _, _, _, _, _, _, hcore', hcount, _⟩ :=
    reparent_success_spec t e m hwk hu hm he hne hemp
  rw [hcore] at hcore'
  simp at hcore'
  constructor
  · intro x
    rw [hcore']
    exact hcount x
  · intro x
    rw [hcore', hcount x]
    exact countId_le_one_of_uniqueIds t hu x

/-- Witness for C5 at the concrete scenario: after moving B(3) under C(4),
the id-multiset `{1, 2, 3, 4}` is unchanged. -/
theorem claim_C5_witness :
    (∀ x, countId exMoved x = countId exTree x) ∧ (∀ x, countId exMoved x ≤ 1) :=
  claim_C5 exTree 3 4 exMoved (by decide) (by decide) (by
    simp [exTree, exMoved, update_employee_manager_route, update_employee_manager_core,
      find_employee_in_tree, find_employee_in_forest, getAttr, dictGet, pyEqInt,
      is_descendant, is_descendant_forest, find_and_remove_employee, bfs_remove_search,
      scanChildren, childEntries, findPath, findPathForest, add_employee_to_manager,
      setManagerId, dictSet, modifyAt, eraseChild, appendChild, nodeAt,
      Node.attrs, Node.children, Node.name])

/-- C6: detach returns not-found exactly when the target is the root's id or
absent (the root is never removed); otherwise it removes and returns the first
node in breadth-first order with the target id, splicing it out of its
parent's children (`eraseIdx` keeps the remaining siblings in order). -/
theorem claim_C6 (t : Node) (x : Int) (hwk : nodeWK t = true) :
    (find_and_remove_employee t x = .ok (none, t) ↔
      (matchesId t x = true ∨ countId t x = 0)) ∧
    (∀ r t', find_and_remove_employee t x = .ok (some r, t') →
      matchesId r x = true ∧
      (bfsNodes t).tail.find? (fun m => matchesId m x) = some r ∧
      ∃ p i par, nodeAt t p = some par ∧ par.children[i]? = some r ∧
        (∀ j, j < i → ∀ d, par.children[j]? = some d → matchesId d x = false) ∧
        t' = modifyAt t p (fun n => eraseChild n i)) := by
  refine ⟨far_none_iff t x hwk, ?_⟩
  intro r t' h
  obtain ⟨h1, _, _, _, _, _, h7, h8⟩ := far_some_spec t x r t' hwk h
  exact ⟨h1, h7, h8⟩

/-- Witness for C6: detaching B(3) from the scenario tree removes exactly the
BFS-first id-3 node. -/
theorem claim_C6_witness :
    matchesId exNodeB 3 = true ∧
    (bfsNodes exTree).tail.find? (fun m => matchesId m 3) = some exNodeB ∧
    ∃ p i par, nodeAt exTree p = some par ∧ par.children[i]? = some exNodeB ∧
      (∀ j, j < i → ∀ d, par.children[j]? = some d → matchesId d 3 = false) ∧
      exDetached = modifyAt exTree p (fun n => eraseChild n i) :=
  (claim_C6 exTree 3 (by decide)).2 exNodeB exDetached (by
    simp [exTree, exNodeB, exDetached, find_and_remove_employee, bfs_remove_search,
      scanChildren, childEntries, getAttr, dictGet, pyEqInt, modifyAt, eraseChild,
      nodeAt, Node.attrs, Node.children, Node.name])

/-- C7: `find_employee_in_tree` returns the first matching node in pre-order
(parent before children, children in listed order); when the id is absent it
returns not-found, and when it appears exactly once it returns that unique
node. -/
theorem claim_C7 (t : Node) (x : Int) (hwk : nodeWK t = true) :
    find_employee_in_tree t x = .ok ((preorder t).find? (fun n => matchesId n x)) ∧
    (countId t x = 0 → find_employee_in_tree t x = .ok none) ∧
    (countId t x = 1 → ∀ n, n ∈ preorder t → matchesId n x = true →
      find_employee_in_tree t x = .ok (some n)) := by
  refine ⟨find_eq_preorder t x hwk, (find_none_iff t x hwk).mpr, ?_⟩
  intro hc n hn hm
  rw [find_eq_preorder t x hwk]
  cases hf : (preorder t).find? (fun n => matchesId n x) with
  | none =>
    rw [List.find?_eq_none] at hf
    exact absurd hm (by simpa using hf n hn)
  | some m0 =>
    have h1 := List.mem_of_find?_eq_some hf
    have h2 := List.find?_some hf
    have he : m0 = n :=
      eq_of_countP_le_one (preorder t) (fun n => matchesId n x)
        (by simpa [countId] using hc.le) m0 n h1 hn (by simpa using h2) hm
    rw [he]

/-- Witness for C7 at the scenario tree, id 3 (present exactly once). -/
theorem claim_C7_witness :
    find_employee_in_tree exTree 3
        = .ok ((preorder exTree).find? (fun n => matchesId n 3)) ∧
    (countId exTree 3 = 0 → find_employee_in_tree exTree 3 = .ok none) ∧
    (countId exTree 3 = 1 → ∀ n, n ∈ preorder exTree → matchesId n 3 = true →
      find_employee_in_tree exTree 3 = .ok (some n)) :=
  claim_C7 exTree 3 (by decide)

/-- C8: under the data-model invariant, once the four validation checks pass
the mutation phase cannot fail: detach returns the employee node (never
not-found), attach never raises its `ValueError`, and the endpoint saves and
answers success. -/
theorem claim_C8 (t : Node) (e m : Int) (hwk : nodeWK t = true) (hu : uniqueIds t)
    (hm : 0 < countId t m) (he : 0 < countId t e) (hne : e ≠ m)
    (hemp : ∀ empN, find_employee_in_tree t e = .ok (some empN) → countId empN m = 0) :
    ∃ r t₁ t₂, find_and_remove_employee t e = .ok (some r, t₁) ∧
      add_employee_to_manager t₁ m (setManagerId r m) = .ok t₂ ∧
      update_employee_manager_route t e m = (t₂, .success) := by
  obtain ⟨r, t₁, q, mn, hfar, _, hadd, _, _, _, hcore, _⟩ :=
    reparent_success_spec t e m hwk hu hm he hne hemp
  exact ⟨r, t₁, modifyAt t₁ q (appendChild (setManagerId r m)), hfar, hadd,
    by simp [update_employee_manager_route, hcore]⟩

/-- Witness for C8 at the concrete scenario, moving B(3) under C(4). -/
theorem claim_C8_witness :
    ∃ r t₁ t₂, find_and_remove_employee exTree 3 = .ok (some r, t₁) ∧
      add_employee_to_manager t₁ 4 (setManagerId r 4) = .ok t₂ ∧
      update_employee_manager_route exTree 3 4 = (t₂, .success) :=
  claim_C8 exTree 3 4 (by decide) (by decide) (by decide) (by decide) (by decide)
    (by
      intro empN hN
      rw [show find_employee_in_tree exTree 3 = .ok (some exNodeB) from rfl] at hN
      simp at hN
      rw [← hN]
      decide)

/-- C10: the tree-navigation functions unconditionally read
`attributes["id"]`, so on a node whose attributes lack "id" they raise
`KeyError`; in particular on the `load_tree` default tree every reparent
request is answered with the generic 500, never with a 404. -/
theorem claim_C10 (e m x : Int) (n : Node) :
    (dictGet n.attrs "id" = none →
      find_employee_in_tree n x = .error (.keyError "id")) ∧
    (dictGet n.attrs "id" = none → is_descendant n x = .error (.keyError "id")) ∧
    (dictGet n.attrs "id" = none →
      find_and_remove_employee n x = .error (.keyError "id")) ∧
    update_employee_manager_route defaultTree e m = (defaultTree, .serverError) := by
  refine ⟨?_, ?_, ?_, ?_⟩
  · intro h
    cases n with
    | mk nm a cs =>
      simp only [Node.attrs] at h
      simp [find_employee_in_tree, getAttr, Node.attrs, h]
  · intro h
    cases n with
    | mk nm a cs =>
      simp only [Node.attrs] at h
      simp [is_descendant, getAttr, Node.attrs, h]
  · intro h
    simp [find_and_remove_employee, getAttr, h]
  · rfl

/-- Witness for C10: the default tree's empty attributes make every navigation
raise `KeyError` and the endpoint answer 500. -/
theorem claim_C10_witness :
    find_employee_in_tree defaultTree 5 = .error (.keyError "id") ∧
    is_descendant defaultTree 5 = .error (.keyError "id") ∧
    find_and_remove_employee defaultTree 5 = .error (.keyError "id") ∧
    update_employee_manager_route defaultTree 1 2 = (defaultTree, .serverError) :=
  ⟨(claim_C10 1 2 5 defaultTree).1 rfl, (claim_C10 1 2 5 defaultTree).2.1 rfl,
    (claim_C10 1 2 5 defaultTree).2.2.1 rfl, (claim_C10 1 2 5 defaultTree).2.2.2⟩

/-! Section: Attach stability and parent/child edges (for C2) -/

mutual

/-- Appending a child at the first pre-order match of `x` does not change
which node `findPath` (hence `find_employee_in_tree`) finds for `x`. -/
theorem findPath_append_stable (n : Node) (x : Int) (q : List Nat) (c : Node)
    (h : findPath n x = .ok (some q)) :
    findPath (modifyAt n q (appendChild c)) x = .ok (some q) := by
  cases n with
  | mk nm a cs =>
    cases hga : getAttr (.mk nm a cs) "id" with
    | error err => simp [findPath, hga] at h
    | ok v =>
      by_cases hpe : pyEqInt v x
      · simp [findPath, hga, hpe] at h
        subst h
        have hga' : getAttr (.mk nm a (cs ++ [c])) "id" = .ok v := hga
        simp [modifyAt, appendChild, Node.name, Node.attrs, Node.children, findPath,
          hga', hpe]
      · cases hfp : findPathForest cs x with
        | error err => simp [findPath, hga, hpe, hfp] at h
        | ok o =>
          cases o with
          | none => simp [findPath, hga, hpe, hfp] at h
          | some ip =>
            obtain ⟨i, p⟩ := ip
            have hq : q = i :: p := by
              simp [findPath, hga, hpe, hfp] at h
              exact h.symm
            subst hq
            obtain ⟨ci, hci, hstab⟩ := findPathForest_append_stable cs x i p c hfp
            simp only [modifyAt, hci]
            have hga' : getAttr
                (.mk nm a (cs.set i (modifyAt ci p (appendChild c)))) "id" = .ok v := hga
            simp [findPath, hga', hpe, hstab]

/-- Forest version of `findPath_append_stable`. -/
theorem findPathForest_append_stable (cs : List Node) (x : Int) (i : Nat) (p : List Nat)
    (c : Node) (h : findPathForest cs x = .ok (some (i, p))) :
    ∃ ci, cs[i]? = some ci ∧
      findPathForest (cs.set i (modifyAt ci p (appendChild c))) x
        = .ok (some (i, p)) := by
  cases cs with
  | nil => simp [findPathForest] at h
  | cons d rest =>
    cases hfd : findPath d x with
    | error err => simp [findPathForest, hfd] at h
    | ok o =>
      cases o with
      | some pd =>
        obtain ⟨hi, hp⟩ : i = 0 ∧ pd = p := by
          simp [findPathForest, hfd] at h
          exact ⟨h.1.symm, h.2⟩
        subst hi
        subst hp
        refine ⟨d, by simp, ?_⟩
        simp only [List.set_cons_zero]
        simp [findPathForest, findPath_append_stable d x pd c hfd]
      | none =>
        cases hfr : findPathForest rest x with
        | error err => simp [findPathForest, hfd, hfr] at h
        | ok o2 =>
          cases o2 with
          | none => simp [findPathForest, hfd, hfr] at h
          | some ip2 =>
            obtain ⟨i2, p2⟩ := ip2
            obtain ⟨hi, hp⟩ : i = i2 + 1 ∧ p2 = p := by
              simp [findPathForest, hfd, hfr] at h
              exact ⟨h.1.symm, h.2⟩
            subst hi
            subst hp
            obtain ⟨ci, hci, hstab⟩ := findPathForest_append_stable rest x i2 p2 c hfr
            refine ⟨ci, by simpa using hci, ?_⟩
            simp only [List.set_cons_succ]
            simp [findPathForest, hfd, hstab]

end

theorem childPairs_mk (nm : String) (a : List (String × AttrVal)) (cs : List Node) :
    childPairs (.mk nm a cs)
      = cs.map (fun c => (.mk nm a cs, c)) ++ childPairsForest cs := by
  simp [childPairs]

theorem childPairsForest_cons (c : Node) (rest : List Node) :
    childPairsForest (c :: rest) = childPairs c ++ childPairsForest rest := by
  simp [childPairsForest]

mutual

/-- Every id-occurrence except the root's is a child in exactly one
parent/child edge: edge count plus the root indicator equals the id count. -/
theorem countP_childPairs (t : Node) (x : Int) :
    (childPairs t).countP (fun pc => matchesId pc.2 x)
      + (if matchesId t x = true then 1 else 0) = countId t x := by
  cases t with
  | mk nm a cs =>
    rw [childPairs_mk, List.countP_append, List.countP_map, countId_mk]
    have hf := countP_childPairsForest cs x
    have hm : cs.countP ((fun pc : Node × Node => matchesId pc.2 x)
        ∘ (fun c => (Node.mk nm a cs, c))) = cs.countP (fun c => matchesId c x) := by
      rfl
    rw [hm]
    omega

/-- Forest version of `countP_childPairs`. -/
theorem countP_childPairsForest (cs : List Node) (x : Int) :
    (childPairsForest cs).countP (fun pc => matchesId pc.2 x)
      + cs.countP (fun c => matchesId c x) = countIdF cs x := by
  cases cs with
  | nil => simp [childPairsForest, countIdF_nil]
  | cons c rest =>
    rw [childPairsForest_cons, List.countP_append, List.countP_cons, countIdF_cons]
    have h1 := countP_childPairs c x
    have h2 := countP_childPairsForest rest x
    omega

end

theorem mem_childPairsForest_of_mem (cs : List Node) (d : Node) (hd : d ∈ cs)
    (pr : Node × Node) (h : pr ∈ childPairs d) : pr ∈ childPairsForest cs := by
  induction cs with
  | nil => simp at hd
  | cons c rest ih =>
    rw [childPairsForest_cons]
    rcases List.mem_cons.mp hd with he | he
    · exact he ▸ List.mem_append_left _ h
    · exact List.mem_append_right _ (ih he)

theorem mem_childPairs_of_nodeAt (t : Node) (p : List Nat) (n c : Node)
    (hp : nodeAt t p = some n) (hc : c ∈ n.children) : (n, c) ∈ childPairs t := by
  induction p generalizing t with
  | nil =>
    simp [nodeAt] at hp
    subst hp
    cases t with
    | mk nm a cs =>
      rw [childPairs_mk]
      exact List.mem_append_left _ (List.mem_map.mpr ⟨c, by simpa [Node.children] using hc, rfl⟩)
  | cons i p' ih =>
    cases t with
    | mk nm a cs =>
      simp only [nodeAt, Node.children] at hp
      cases hg : cs[i]? with
      | none => rw [hg] at hp; simp at hp
      | some d =>
        rw [hg] at hp
        rw [childPairs_mk]
        exact List.mem_append_right _
          (mem_childPairsForest_of_mem cs d (mem_of_getElem?_node cs i d hg) _ (ih d hp))

/-- Single-child tree refuting C2 as stated: A(2) already reports to the
root CEO(1). -/
def cxTree : Node :=
  .mk "CEO" [("id", .int 1), ("manager_id", .int 0)]
    [ .mk "A" [("id", .int 2), ("manager_id", .int 1)] [] ]

/-- Counterexample to C2 as stated: reparenting A(2) under its current manager
CEO(1) succeeds, the previous manager of A is the CEO node (which is the new
manager M), and after the operation A still appears (exactly once) in the
children sequence of that previous manager — "E no longer appears in the
children sequence of its previous manager" fails. -/
theorem claim_C2_counterexample :
    update_employee_manager_route cxTree 2 1 = (cxTree, .success) ∧
    parentOfId cxTree 2 = some cxTree ∧ matchesId cxTree 1 = true ∧
    ∃ mn, find_employee_in_tree cxTree 1 = .ok (some mn) ∧
      mn.children.countP (fun c => matchesId c 2) = 1 := by
  refine ⟨?_, rfl, by decide, cxTree, rfl, by decide⟩
  simp [cxTree, update_employee_manager_route, update_employee_manager_core,
    find_employee_in_tree, find_employee_in_forest, getAttr, dictGet, pyEqInt,
    is_descendant, is_descendant_forest, find_and_remove_employee, bfs_remove_search,
    scanChildren, childEntries, findPath, findPathForest, add_employee_to_manager,
    setManagerId, dictSet, modifyAt, eraseChild, appendChild, nodeAt,
    Node.attrs, Node.children, Node.name]

/-- C2 (amended): after every successful reparent of E under M on a tree
satisfying the data-model invariant, the children sequence of the node found
for M contains E exactly once, appended as the last element; and in the
resulting tree every parent whose children contain E is the M node — so E is
gone from its previous manager's children whenever that previous manager is a
node other than the one found for M (when E is reparented under its current
manager, E remains that manager's child, moved to the end). -/
theorem claim_C2 (t : Node) (e m : Int) (t₂ : Node) (hwk : nodeWK t = true)
    (hu : uniqueIds t)
    (hs : update_employee_manager_route t e m = (t₂, .success)) :
    ∃ mn emp₂ cs₀, find_employee_in_tree t₂ m = .ok (some mn) ∧
      mn.children = cs₀ ++ [emp₂] ∧ matchesId emp₂ e = true ∧
      mn.children.countP (fun c => matchesId c e) = 1 ∧
      ∀ pc ∈ childPairs t₂, matchesId pc.2 e = true → matchesId pc.1 m = true := by
  have hcore : update_employee_manager_core t e m = .ok t₂ := by
    unfold update_employee_manager_route at hs
    cases hc : update_employee_manager_core t e m with
    | ok tt =>
      rw [hc] at hs
      simp at hs
      rw [hs]
    | error err =>
      rw [hc] at hs
      cases err <;> simp at hs
  obtain ⟨hm, he, hne, hemp⟩ := reparent_success_inv t e m t₂ hwk hcore
  obtain ⟨r, t₁, q, mn₁, hfar, hrm, hadd, hfp, hna, hmn, hcore', hcount, hwk₂, ht₁e,
    hrm0, hrootF, hattrs₂, hwk₁⟩ := reparent_success_spec t e m hwk hu hm he hne hemp
  rw [hcore] at hcore'
  simp at hcore'
  have hna₂ : nodeAt t₂ q = some (appendChild (setManagerId r m) mn₁) := by
    rw [hcore']
    exact nodeAt_modifyAt_self t₁ q mn₁ (appendChild (setManagerId r m)) hna
  have hfp₂ : findPath t₂ m = .ok (some q) := by
    rw [hcore']
    exact findPath_append_stable t₁ m q (setManagerId r m) hfp
  have hfind₂ : find_employee_in_tree t₂ m
      = .ok (some (appendChild (setManagerId r m) mn₁)) := by
    rcases findPath_vs_find t₂ m with ⟨er, h1, h2⟩ | ⟨h1, h2⟩ | ⟨q', m', h1, h2, h3, h4⟩
    · rw [hfp₂] at h1; cases h1
    · rw [hfp₂] at h1; cases h1
    · rw [hfp₂] at h1
      simp at h1
      subst h1
      rw [hna₂] at h3
      simp at h3
      rw [h2, h3]
  have hzero : ∀ cN ∈ mn₁.children, matchesId cN e = false := by
    intro cN hcN
    by_contra hx
    simp at hx
    have hcmem : cN ∈ preorder t₁ :=
      mem_preorder_trans cN mn₁ t₁ (child_mem_preorder mn₁ cN hcN)
        (nodeAt_mem_preorder t₁ q mn₁ hna)
    have : 0 < countId t₁ e := List.countP_pos_iff.mpr ⟨cN, hcmem, hx⟩
    omega
  refine ⟨appendChild (setManagerId r m) mn₁, setManagerId r m, mn₁.children, hfind₂,
    rfl, by rw [matchesId_setManagerId]; exact hrm, ?_, ?_⟩
  · show (mn₁.children ++ [setManagerId r m]).countP (fun c => matchesId c e) = 1
    rw [List.countP_append, List.countP_eq_zero.mpr (by
      intro c hc
      simp [hzero c hc])]
    simp [matchesId_setManagerId, hrm]
  · intro pc hpc hmatch
    have hroot₂ : matchesId t₂ e = false := by
      rw [matchesId_attrs_eq t₂ t (by rw [hcore']; exact hattrs₂) e]
      exact hrootF
    have hcnt₂ : countId t₂ e = 1 := by
      have h1 : countId t₂ e = countId t e := by
        rw [hcore']
        exact hcount e
      have h2 : countId t e ≤ 1 := countId_le_one_of_uniqueIds t hu e
      omega
    have hcp : (childPairs t₂).countP (fun pc => matchesId pc.2 e) = 1 := by
      have := countP_childPairs t₂ e
      rw [hroot₂] at this
      simp at this
      omega
    have hP0 : (appendChild (setManagerId r m) mn₁, setManagerId r m) ∈ childPairs t₂ :=
      mem_childPairs_of_nodeAt t₂ q _ (setManagerId r m) hna₂
        (by simp [appendChild, Node.children])
    have hpe : pc = (appendChild (setManagerId r m) mn₁, setManagerId r m) :=
      eq_of_countP_le_one (childPairs t₂) (fun pc => matchesId pc.2 e) (le_of_eq hcp)
        pc _ hpc hP0 hmatch (by
          show matchesId (setManagerId r m) e = true
          rw [matchesId_setManagerId]
          exact hrm)
    rw [hpe]
    show matchesId (appendChild (setManagerId r m) mn₁) m = true
    rw [matchesId_attrs_eq _ mn₁ (attrs_appendChild (setManagerId r m) mn₁)]
    exact hmn

/-- Witness for the amended C2 at the concrete scenario, moving B(3) under
C(4). -/
theorem claim_C2_witness :
    ∃ mn emp₂ cs₀, find_employee_in_tree exMoved 4 = .ok (some mn) ∧
      mn.children = cs₀ ++ [emp₂] ∧ matchesId emp₂ 3 = true ∧
      mn.children.countP (fun c => matchesId c 3) = 1 ∧
      ∀ pc ∈ childPairs exMoved, matchesId pc.2 3 = true → matchesId pc.1 4 = true :=
  claim_C2 exTree 3 4 exMoved (by decide) (by decide) (by
    simp [exTree, exMoved, update_employee_manager_route, update_employee_manager_core,
      find_employee_in_tree, find_employee_in_forest, getAttr, dictGet, pyEqInt,
      is_descendant, is_descendant_forest, find_and_remove_employee, bfs_remove_search,
      scanChildren, childEntries, findPath, findPathForest, add_employee_to_manager,
      setManagerId, dictSet, modifyAt, eraseChild, appendChild, nodeAt,
      Node.attrs, Node.children, Node.name])

/-! Section: Persistence: `save_tree` / `load_tree` round trip (for C9)

`save_tree` (`main.py:23`) serializes the tree dict with `json.dump`;
`load_tree` (`main.py:16`) parses it back with `json.load`.  The Python `json`
module (standard library, not part of this repository) is modelled at the
JSON-value level: the file holds the JSON value `nodeToJson t`, and parsing
recovers the dict — `jsonToNode` states what value shape `load_tree` hands
back to the tree code. -/

/-- A JSON value as stored in `tree.json` (no floats/bools/null occur in the
trees this service writes). -/
inductive Json where
  | num (i : Int)
  | str (s : String)
  | arr (elems : List Json)
  | obj (fields : List (String × Json))

/-- Attribute values serialize to JSON scalars. -/
def attrValToJson : AttrVal → Json
  | .int i => .num i
  | .str s => .str s

/-- A JSON scalar parses back to an attribute value. -/
def jsonToAttrVal : Json → Option AttrVal
  | .num i => some (.int i)
  | .str s => some (.str s)
  | _ => none

/-- The `attributes` dict as a JSON object. -/
def attrsToJson (a : List (String × AttrVal)) : List (String × Json) :=
  a.map (fun kv => (kv.1, attrValToJson kv.2))

/-- Parse a JSON object back into an `attributes` dict. -/
def attrsFromJson : List (String × Json) → Option (List (String × AttrVal))
  | [] => some []
  | (k, v) :: rest =>
    match jsonToAttrVal v, attrsFromJson rest with
    | some av, some arest => some ((k, av) :: arest)
    | _, _ => none

mutual

/-- What `json.dump` writes for a node dict:
`{"name": ..., "attributes": {...}, "children": [...]}`. -/
def nodeToJson : Node → Json
  | .mk nm a cs =>
    .obj [("name", .str nm), ("attributes", .obj (attrsToJson a)),
      ("children", .arr (forestToJson cs))]

/-- What `json.dump` writes for a children list. -/
def forestToJson : List Node → List Json
  | [] => []
  | c :: rest => nodeToJson c :: forestToJson rest

end

mutual

/-- Recover the node dict from the JSON value `json.load` produces. -/
def jsonToNode : Json → Option Node
  | .obj [("name", .str nm), ("attributes", .obj af), ("children", .arr cj)] =>
    match attrsFromJson af, forestFromJson cj with
    | some a, some cs => some (.mk nm a cs)
    | _, _ => none
  | _ => none

/-- Recover a children list. -/
def forestFromJson : List Json → Option (List Node)
  | [] => some []
  | j :: rest =>
    match jsonToNode j, forestFromJson rest with
    | some n, some ns => some (n :: ns)
    | _, _ => none

end

/-- Round-trip value: `load_tree` applied to what `save_tree` persisted, at the JSON-value
level. -/
def load_after_save (t : Node) : Option Node := jsonToNode (nodeToJson t)

/-- A dict has pairwise-distinct keys. -/
def nodupKeys : List (String × AttrVal) → Bool
  | [] => true
  | (k, _) :: rest => !(rest.any (fun kv => kv.1 == k)) && nodupKeys rest

mutual

/-- Well-formed tree: every `attributes` dict has distinct keys (an
association list with duplicate keys corresponds to no Python dict). -/
def wfTree : Node → Bool
  | .mk _ a cs => nodupKeys a && wfForest cs

/-- Well-formedness of a forest. -/
def wfForest : List Node → Bool
  | [] => true
  | c :: rest => wfTree c && wfForest rest

end

theorem jsonToAttrVal_attrValToJson (v : AttrVal) :
    jsonToAttrVal (attrValToJson v) = some v := by
  cases v <;> rfl

theorem attrsFromJson_attrsToJson (a : List (String × AttrVal)) :
    attrsFromJson (attrsToJson a) = some a := by
  induction a with
  | nil => rfl
  | cons kv rest ih =>
    obtain ⟨k, v⟩ := kv
    have ih' : attrsFromJson (rest.map (fun kv => (kv.1, attrValToJson kv.2)))
        = some rest := ih
    simp [attrsToJson, attrsFromJson, jsonToAttrVal_attrValToJson, ih']

mutual

theorem jsonToNode_nodeToJson (t : Node) : jsonToNode (nodeToJson t) = some t := by
  cases t with
  | mk nm a cs =>
    simp only [nodeToJson, jsonToNode, attrsFromJson_attrsToJson,
      forestFromJson_forestToJson cs]

theorem forestFromJson_forestToJson (cs : List Node) :
    forestFromJson (forestToJson cs) = some cs := by
  cases cs with
  | nil => rfl
  | cons c rest =>
    simp only [forestToJson, forestFromJson, jsonToNode_nodeToJson c,
      forestFromJson_forestToJson rest]

end

/-- C9: for every well-formed tree, loading after saving returns the same
tree (round trip at the JSON-value level of `json.dump`/`json.load`). -/
theorem claim_C9 (t : Node) (_hwf : wfTree t = true) : load_after_save t = some t :=
  jsonToNode_nodeToJson t

/-- Witness for C9 at the concrete scenario tree. -/
theorem claim_C9_witness : wfTree exTree = true ∧ load_after_save exTree = some exTree :=
  ⟨by decide, claim_C9 exTree (by decide)⟩

end OrganiFlow
